import Mathlib

/-!
Verification of the configuration-file formatter (`scripts/format.ts`) and the
secret scanner (`scripts/check-secrets.ts`) of this repository.

JavaScript strings are modelled as `List Char`; machine integers do not occur.
JavaScript regular-expression tests that the source applies to fixed patterns
are modelled by equivalent recursive functions on `List Char`, noted at each
definition.  File-system reads are modelled by passing the read outcome (or a
directory listing) as an explicit argument.
-/

/-- Shorthand: the character list of a string literal. -/
def chars (s : String) : List Char := s.toList

/-- Whitespace as matched by JavaScript's `\s` and `trim` (ASCII part). -/
def isJsWs (c : Char) : Bool :=
  c = ' ' || c = '\t' || c = '\n' || c = '\r' || c = '\x0b' || c = '\x0c'

/-- JavaScript `String.prototype.trimStart`. -/
def jsTrimStart (l : List Char) : List Char := l.dropWhile isJsWs

/-- JavaScript `String.prototype.trimEnd`. -/
def jsTrimEnd (l : List Char) : List Char := (l.reverse.dropWhile isJsWs).reverse

/-- JavaScript `String.prototype.trim`. -/
def jsTrim (l : List Char) : List Char := jsTrimEnd (jsTrimStart l)

/-- JavaScript `s.split(sep)` for a single-character separator:
`jsSplit sep []` is `[[]]`, matching `"".split(sep) = [""]`. -/
def jsSplit (sep : Char) : List Char → List (List Char)
  | [] => [[]]
  | c :: cs =>
    if c = sep then [] :: jsSplit sep cs
    else
      match jsSplit sep cs with
      | [] => [[c]]
      | h :: t => (c :: h) :: t

/-- Join pieces with a single-character separator (inverse of `jsSplit`). -/
def joinSep (sep : Char) : List (List Char) → List Char
  | [] => []
  | [l] => l
  | l :: ls => l ++ sep :: joinSep sep ls

/-- JavaScript `hay.includes(needle)`: substring containment. -/
def containsSub (needle hay : List Char) : Bool :=
  hay.tails.any fun t => needle.isPrefixOf t

/-- Lower-casing of a JavaScript string (`toLowerCase`, ASCII part). -/
def lowerChars (s : List Char) : List Char := s.map Char.toLower

/-! ## Masking Engine (`maskSecret`, `scripts/check-secrets.ts` lines 144-152) -/

/-- `maskSecret` from `scripts/check-secrets.ts`: values of length at most 8
are fully masked; longer values keep the first four and last four characters
with `min (length - 8) 16` asterisks in between. -/
def maskSecret (value : List Char) : List Char :=
  if value.length ≤ 8 then
    List.replicate value.length '*'
  else
    value.take 4 ++ List.replicate (min (value.length - 8) 16) '*'
      ++ value.drop (value.length - 4)

/-- The masking rule as the specification words it: if the length is at most 8,
an all-asterisk string of the same length; otherwise the first 4 characters,
then exactly `min (length - 8) 16` asterisks, then the last 4 characters. -/
def maskSecretSpec (v : List Char) : List Char :=
  if v.length ≤ 8 then
    List.replicate v.length '*'
  else
    v.take 4 ++ List.replicate (min (v.length - 8) 16) '*'
      ++ v.drop (v.length - 4)

/-! ## Context gating (`scanFile`, `scripts/check-secrets.ts` lines 188-203) -/

/-- The lower-cased window `content.slice(max(0, i - 100), i + L + 100)` that
`scanFile` inspects around a match at offset `i` of length `L`
(`scripts/check-secrets.ts` lines 191-196).  Natural-number subtraction
mirrors JavaScript's `Math.max(0, i - 100)`. -/
def surroundingText (content : List Char) (i L : Nat) : List Char :=
  lowerChars ((content.drop (i - 100)).take (i + L + 100 - (i - 100)))

/-- The some-keyword-occurs test of `scanFile` (lines 197-199). -/
def hasContext (ctxs : List (List Char)) (content : List Char) (i L : Nat) : Bool :=
  ctxs.any fun ctx => containsSub (lowerChars ctx) (surroundingText content i L)

/-- Keep-or-discard decision of `scanFile` for a match at offset `i` of length
`L` (lines 190-203): with a non-empty context list the match is kept only when
a keyword occurs in the surrounding window; otherwise it is always kept. -/
def keepMatch (ctxs : List (List Char)) (content : List Char) (i L : Nat) : Bool :=
  if 0 < ctxs.length then hasContext ctxs content i L else true

/-- The window as the specification words it: the part of the original content
extending 100 characters before the match's start offset and 100 characters
after its end offset. -/
def contextWindow (content : List Char) (i L : Nat) : List Char :=
  (content.take (i + L + 100)).drop (i - 100)

/-! ## Line/column bookkeeping (`getLineContext`, `scripts/check-secrets.ts` lines 157-167) -/

/-- `getLineContext` from `scripts/check-secrets.ts`: the 1-based line and
column of a match offset, and the trimmed source line holding the match.
`lines[lines.length - 1]?.length || 0` is modelled by `getLast?.getD []`
(the split result is never empty) and `allLines[line - 1] || ''` by
`getD (line - 1) []`. -/
def getLineContext (content : List Char) (matchIndex : Nat) :
    Nat × Nat × List Char :=
  let lines := jsSplit '\n' (content.take matchIndex)
  let line := lines.length
  let column := (lines.getLast?.getD []).length + 1
  let allLines := jsSplit '\n' content
  let context := jsTrim (allLines.getD (line - 1) [])
  (line, column, context)

/-! ## Strict JSON (`JSON.parse` / `JSON.stringify(-, null, 2)`,
used by `formatPureJSON`, `scripts/format.ts` lines 107-110)

JSON values are modelled with numbers restricted to integers: fraction and
exponent forms denote floating-point numbers, which are outside this
development's scope, so the modelled parser rejects them.  Arrays and objects
are mutual inductives (rather than nested lists) to keep induction
principles straightforward. -/

mutual
inductive JVal : Type where
  | null : JVal
  | jbool : Bool → JVal
  | jnum : Int → JVal
  | jstr : List Char → JVal
  | jarr : JArr → JVal
  | jobj : JObj → JVal
  deriving DecidableEq
inductive JArr : Type where
  | anil : JArr
  | acons : JVal → JArr → JArr
  deriving DecidableEq
inductive JObj : Type where
  | onil : JObj
  | ocons : List Char → JVal → JObj → JObj
  deriving DecidableEq
end

/-- The decimal digit character for `n < 10`. -/
def digitChar (n : Nat) : Char := Char.ofNat (48 + n)

/-- Accumulator loop producing decimal digits most-significant first; the
fuel argument only bounds recursion and any `fuel > n` is enough. -/
def natToCharsAux : Nat → Nat → List Char → List Char
  | 0, _, acc => acc
  | fuel + 1, n, acc =>
    if n < 10 then digitChar n :: acc
    else natToCharsAux fuel (n / 10) (digitChar (n % 10) :: acc)

/-- Decimal digits of a natural number. -/
def natToChars (n : Nat) : List Char := natToCharsAux (n + 1) n []

/-- Decimal rendering of an integer, as `JSON.stringify` prints integral
numbers. -/
def intToChars (n : Int) : List Char :=
  if n < 0 then '-' :: natToChars n.natAbs else natToChars n.toNat

/-- Lower-case hexadecimal digit for `n < 16`, as `JSON.stringify` uses in
`\u` escapes. -/
def hexDigitChar (n : Nat) : Char :=
  if n < 10 then digitChar n else Char.ofNat (87 + n)

/-- Escaping of one character inside a JSON string literal, following
`JSON.stringify`: quote, backslash and the named control escapes, `\u00xx`
for the remaining control characters, the character itself otherwise. -/
def escChar (c : Char) : List Char :=
  if c = '"' then ['\\', '"']
  else if c = '\\' then ['\\', '\\']
  else if c = '\x08' then ['\\', 'b']
  else if c = '\t' then ['\\', 't']
  else if c = '\n' then ['\\', 'n']
  else if c = '\x0c' then ['\\', 'f']
  else if c = '\r' then ['\\', 'r']
  else if c.toNat < 32 then
    ['\\', 'u', '0', '0', hexDigitChar (c.toNat / 16), hexDigitChar (c.toNat % 16)]
  else [c]

/-- Escaping of a whole string body. -/
def escStr : List Char → List Char
  | [] => []
  | c :: r => escChar c ++ escStr r

/-- A serialized JSON string literal. -/
def serStr (s : List Char) : List Char := '"' :: escStr s ++ ['"']

/-- Indentation of `JSON.stringify(-, null, 2)`: two spaces per level. -/
def indentChars (d : Nat) : List Char := List.replicate (2 * d) ' '

mutual
/-- Rendering of `JSON.stringify(v, null, 2)` at indentation depth `ind`. -/
def serVal (ind : Nat) : JVal → List Char
  | .null => ['n', 'u', 'l', 'l']
  | .jbool true => ['t', 'r', 'u', 'e']
  | .jbool false => ['f', 'a', 'l', 's', 'e']
  | .jnum n => intToChars n
  | .jstr s => serStr s
  | .jarr .anil => ['[', ']']
  | .jarr (.acons v tl) =>
    '[' :: '\n' :: serItems (ind + 1) (.acons v tl)
      ++ '\n' :: (indentChars ind ++ [']'])
  | .jobj .onil => ['\x7b', '\x7d']
  | .jobj (.ocons k v tl) =>
    '\x7b' :: '\n' :: serFields (ind + 1) (.ocons k v tl)
      ++ '\n' :: (indentChars ind ++ ['\x7d'])
/-- The comma-and-newline separated items of an array, each indented. -/
def serItems (ind : Nat) : JArr → List Char
  | .anil => []
  | .acons v .anil => indentChars ind ++ serVal ind v
  | .acons v (.acons w tw) =>
    indentChars ind ++ serVal ind v ++ ',' :: '\n' :: serItems ind (.acons w tw)
/-- The comma-and-newline separated fields of an object. -/
def serFields (ind : Nat) : JObj → List Char
  | .onil => []
  | .ocons k v .onil => indentChars ind ++ serStr k ++ ':' :: ' ' :: serVal ind v
  | .ocons k v (.ocons k2 v2 tl) =>
    indentChars ind ++ serStr k ++ ':' :: ' ' :: serVal ind v
      ++ ',' :: '\n' :: serFields ind (.ocons k2 v2 tl)
end

/-- Whitespace accepted by `JSON.parse` between tokens. -/
def isJsonWs (c : Char) : Bool := c = ' ' || c = '\t' || c = '\n' || c = '\r'

/-- Skipping of inter-token whitespace. -/
def skipWs (l : List Char) : List Char := l.dropWhile isJsonWs

/-- Decimal digit test (`0`-`9`). -/
def isDigitChar (c : Char) : Bool := 48 ≤ c.toNat && c.toNat ≤ 57

/-- Hexadecimal digit test for `\u` escapes. -/
def isHexDigit (c : Char) : Bool :=
  (48 ≤ c.toNat && c.toNat ≤ 57) || (97 ≤ c.toNat && c.toNat ≤ 102)
    || (65 ≤ c.toNat && c.toNat ≤ 70)

/-- Value of a hexadecimal digit. -/
def hexVal (c : Char) : Nat :=
  if c.toNat ≤ 57 then c.toNat - 48
  else if c.toNat ≤ 70 then c.toNat - 55
  else c.toNat - 87

/-- The named single-character escapes of JSON. -/
def unescapeChar (e : Char) : Option Char :=
  if e = '"' then some '"'
  else if e = '\\' then some '\\'
  else if e = '/' then some '/'
  else if e = 'b' then some '\x08'
  else if e = 'f' then some '\x0c'
  else if e = 'n' then some '\n'
  else if e = 'r' then some '\r'
  else if e = 't' then some '\t'
  else none

/-- Parsing of a JSON string body after the opening quote: returns the
decoded characters and the remainder after the closing quote.  Raw control
characters are rejected, as `JSON.parse` does.  The fuel argument only
bounds recursion; one unit is spent per decoded character. -/
def parseStrBodyF : Nat → List Char → Option (List Char × List Char)
  | 0, _ => none
  | fuel + 1, s =>
    match s with
    | [] => none
    | c :: r =>
      if c = '"' then some ([], r)
      else if c = '\\' then
        match r with
        | [] => none
        | e :: r2 =>
          if e = 'u' then
            match r2 with
            | h1 :: h2 :: h3 :: h4 :: r3 =>
              if isHexDigit h1 && isHexDigit h2 && isHexDigit h3 && isHexDigit h4 then
                (parseStrBodyF fuel r3).map fun p =>
                  (Char.ofNat (4096 * hexVal h1 + 256 * hexVal h2
                    + 16 * hexVal h3 + hexVal h4) :: p.1, p.2)
              else none
            | _ => none
          else
            match unescapeChar e with
            | some d => (parseStrBodyF fuel r2).map fun p => (d :: p.1, p.2)
            | none => none
      else if 32 ≤ c.toNat then (parseStrBodyF fuel r).map fun p => (c :: p.1, p.2)
      else none

/-- String-body parse with enough fuel for its input. -/
def parseStrBody (s : List Char) : Option (List Char × List Char) :=
  parseStrBodyF (s.length + 1) s

/-- Numeric value of a digit run. -/
def digitsToNat (ds : List Char) : Nat :=
  ds.foldl (fun a c => a * 10 + (c.toNat - 48)) 0

/-- Parsing of an unsigned JSON integer: a digit run without a redundant
leading zero, not followed by a fraction or exponent marker (such inputs
denote floating-point numbers, outside this model). -/
def parseUInt (s : List Char) : Option (Nat × List Char) :=
  let ds := s.takeWhile isDigitChar
  let r := s.dropWhile isDigitChar
  if ds = [] then none
  else if ds.head? = some '0' ∧ ds.length ≠ 1 then none
  else if r.head? = some '.' ∨ r.head? = some 'e' ∨ r.head? = some 'E' then none
  else some (digitsToNat ds, r)

/-- Parsing of a number whose first character `c` has been inspected. -/
def parseNumFrom (c : Char) (r : List Char) : Option (JVal × List Char) :=
  if c = '-' then (parseUInt r).map fun p => (.jnum (-(p.1 : Int)), p.2)
  else if isDigitChar c then
    (parseUInt (c :: r)).map fun p => (.jnum (p.1 : Int), p.2)
  else none

mutual
/-- Recursive-descent model of `JSON.parse`: one value, returning the
remainder.  The fuel argument only bounds recursion depth. -/
def parseVal : Nat → List Char → Option (JVal × List Char)
  | 0, _ => none
  | fuel + 1, s =>
    match skipWs s with
    | [] => none
    | c :: r =>
      if c = 'n' then
        if ['u', 'l', 'l'].isPrefixOf r then some (.null, r.drop 3) else none
      else if c = 't' then
        if ['r', 'u', 'e'].isPrefixOf r then some (.jbool true, r.drop 3) else none
      else if c = 'f' then
        if ['a', 'l', 's', 'e'].isPrefixOf r then some (.jbool false, r.drop 4)
        else none
      else if c = '"' then
        (parseStrBody r).map fun p => (.jstr p.1, p.2)
      else if c = '[' then
        match skipWs r with
        | ']' :: r2 => some (.jarr .anil, r2)
        | _ => (parseItems fuel r).map fun p => (.jarr p.1, p.2)
      else if c = '\x7b' then
        match skipWs r with
        | '\x7d' :: r2 => some (.jobj .onil, r2)
        | _ => (parseFields fuel r).map fun p => (.jobj p.1, p.2)
      else parseNumFrom c r
/-- One-or-more comma-separated array items up to the closing bracket. -/
def parseItems : Nat → List Char → Option (JArr × List Char)
  | 0, _ => none
  | fuel + 1, s =>
    match parseVal fuel s with
    | none => none
    | some (v, r) =>
      match skipWs r with
      | ',' :: r2 => (parseItems fuel r2).map fun p => (.acons v p.1, p.2)
      | ']' :: r2 => some (.acons v .anil, r2)
      | _ => none
/-- One-or-more comma-separated object fields up to the closing brace. -/
def parseFields : Nat → List Char → Option (JObj × List Char)
  | 0, _ => none
  | fuel + 1, s =>
    match skipWs s with
    | '"' :: r =>
      match parseStrBody r with
      | none => none
      | some (k, r2) =>
        match skipWs r2 with
        | ':' :: r3 =>
          match parseVal fuel r3 with
          | none => none
          | some (v, r4) =>
            match skipWs r4 with
            | ',' :: r5 => (parseFields fuel r5).map fun p => (.ocons k v p.1, p.2)
            | '\x7d' :: r5 => some (.ocons k v .onil, r5)
            | _ => none
        | _ => none
    | _ => none
end

/-- The strict-JSON parse: a single value with only whitespace after it.
The fuel `length + 2` is enough for every input whose parse succeeds in
this development. -/
def parseJSON (c : List Char) : Option JVal :=
  match parseVal (c.length + 2) c with
  | some (v, r) => if skipWs r = [] then some v else none
  | none => none

/-- `formatPureJSON` from `scripts/format.ts` lines 107-110:
`JSON.stringify(JSON.parse(content), null, 2) + '\n'`, or `none` when the
strict parse fails (the JavaScript function throws). -/
def formatPureJSON (content : List Char) : Option (List Char) :=
  (parseJSON content).map fun v => serVal 0 v ++ ['\n']

mutual
/-- Fuel needed by `parseVal` to reparse a serialized value. -/
def fuelV : JVal → Nat
  | .null => 1
  | .jbool _ => 1
  | .jnum _ => 1
  | .jstr _ => 1
  | .jarr a => 1 + fuelA a
  | .jobj o => 1 + fuelO o
/-- Fuel needed by `parseItems` for serialized array items. -/
def fuelA : JArr → Nat
  | .anil => 1
  | .acons v tl => 1 + fuelV v + fuelA tl
/-- Fuel needed by `parseFields` for serialized object fields. -/
def fuelO : JObj → Nat
  | .onil => 1
  | .ocons _ v tl => 1 + fuelV v + fuelO tl
end

/-- Characters that may follow a serialized value without extending its last
token: the serializer separates values only with commas and newlines. -/
def restSafe (rest : List Char) : Prop :=
  match rest with
  | [] => True
  | c :: _ => c = ',' ∨ c = '\n'

/-- First-character facts every serialized value enjoys: not whitespace and
not a closing delimiter or separator. -/
def headOK (c : Char) : Prop :=
  isJsonWs c = false ∧ c ≠ ']' ∧ c ≠ '\x7d' ∧ c ≠ ','

/-! ## JSONC reformatter (`formatJSONC`, `scripts/format.ts` lines 31-102) -/

/-- Comment-line test of `formatJSONC` (lines 48-52): the trimmed line
starts with `//`, `/*`, or `*`. -/
def startsComment (t : List Char) : Bool :=
  ['/', '/'].isPrefixOf t || ['/', '*'].isPrefixOf t || ['*'].isPrefixOf t

/-- Test `/^[}\]]/` of line 58: the trimmed line starts with a closing
brace or bracket. -/
def startsClosing (t : List Char) : Bool :=
  t.head? == some '\x7d' || t.head? == some ']' 

/-- Test `/\[.*\]/` (respectively `/\{.*\}/`): an opening delimiter with a
closing delimiter somewhere after it on the same line. -/
def hasPairBr (o c : Char) : List Char → Bool
  | [] => false
  | x :: r => (x == o && r.contains c) || hasPairBr o c r

/-- Test of lines 76-79: the trimmed line ends with `{` or `[` and contains
neither a same-line `[...]` nor a same-line `{...}` pair. -/
def endsOpening (t : List Char) : Bool :=
  (t.getLast? == some '\x7b' || t.getLast? == some '[')
    && !hasPairBr '[' ']' t && !hasPairBr '\x7b' '\x7d' t

/-- Position of the first `//` in a list, if any. -/
def findSlashes : List Char → Option Nat
  | [] => none
  | '/' :: '/' :: _ => some 0
  | _ :: r => (findSlashes r).map (fun i => i + 1)

/-- The inline-comment split `/^(.+?)\s*(\/\/.*)$/` of line 67 applied to a
trimmed line: the regex matches exactly when `//` occurs at index at least
1; the code group is everything before that first occurrence (the regex
puts the whitespace run before `//` outside the group, but the code part is
trimmed again on emission, so splitting at the occurrence is equivalent)
and the comment group runs from it to the end of the line. -/
def splitInline (t : List Char) : Option (List Char × List Char) :=
  match t with
  | [] => none
  | _ :: r =>
    match findSlashes r with
    | some j => some (t.take (j + 1), t.drop (j + 1))
    | none => none

/-- One line of `formatJSONC` (`scripts/format.ts` lines 37-92): the new
depth and the emitted line. -/
def jsoncLine (depth : Nat) (line : List Char) : Nat × List Char :=
  let t := jsTrim line
  if t = [] then (depth, [])
  else if startsComment t then (depth, indentChars depth ++ t)
  else
    let d1 := if startsClosing t then depth - 1 else depth
    let emitted :=
      match splitInline t with
      | some p => indentChars d1 ++ (jsTrim p.1 ++ ' ' :: p.2)
      | none => indentChars d1 ++ t
    let d2 := if endsOpening t then d1 + 1 else d1
    (d2, emitted)

/-- The line loop of `formatJSONC`, threading the depth. -/
def jsoncLines (depth : Nat) : List (List Char) → List (List Char)
  | [] => []
  | l :: ls => (jsoncLine depth l).2 :: jsoncLines (jsoncLine depth l).1 ls

/-- Splitting on `/\r?\n/` (line 32 and the other formatters). -/
def splitLinesJS : List Char → List (List Char)
  | [] => [[]]
  | '\r' :: '\n' :: r => [] :: splitLinesJS r
  | '\n' :: r => [] :: splitLinesJS r
  | c :: r =>
    match splitLinesJS r with
    | [] => [[c]]
    | h :: t => (c :: h) :: t

/-- Joining the output lines (`join('\n')`). -/
def joinNL (ls : List (List Char)) : List Char := joinSep '\n' ls

/-- End-of-output normalization of `formatJSONC` (lines 95-99):
`replace(/\n+$/, '\n')` followed by appending a newline when missing, which
collapses the trailing newline run to exactly one. -/
def ensureSingleTrailingNL (output : List Char) : List Char :=
  (output.reverse.dropWhile (fun c => c == '\n')).reverse ++ ['\n']

/-- `formatJSONC` from `scripts/format.ts` lines 31-102. -/
def formatJSONC (content : List Char) : List Char :=
  ensureSingleTrailingNL (joinNL (jsoncLines 0 (splitLinesJS content)))

/-! ## JSON dispatcher (`formatJSON`, `scripts/format.ts` lines 115-130) -/

/-- Search for `//` immediately preceded by a character that is neither `:`
nor `"` (the regex `/[^:"]\/\//` of line 117). -/
def hasBadSlashes : List Char → Bool
  | a :: b :: c :: r =>
    (!(a == ':') && !(a == '"') && b == '/' && c == '/') || hasBadSlashes (b :: c :: r)
  | _ => false

/-- The comment-detection test of line 117:
`/^\s*\/\/|\/\*/.test(content) || /[^:"]\/\//.test(content)`.  The first
regex matches when the first non-whitespace characters of the whole content
(whitespace may span line breaks) are `//`, or when `/*` occurs anywhere;
the second via `hasBadSlashes`. -/
def hasComments (content : List Char) : Bool :=
  (['/', '/'].isPrefixOf (content.dropWhile isJsWs)
      || containsSub ['/', '*'] content)
    || hasBadSlashes content

/-- Search for `//` immediately preceded by a character other than a quote,
including an occurrence at the very start (which has no preceding quote). -/
def hasSlashesNotAfterQuote : List Char → Bool
  | a :: b :: c :: r =>
    (!(a == '"') && b == '/' && c == '/') || hasSlashesNotAfterQuote (b :: c :: r)
  | _ => false

/-- The routing condition exactly as claim C3 words it: some line begins
(after leading whitespace) with `//` or `/*`, or some occurrence of `//` is
not immediately preceded by a quote character. -/
def claimedHasComments (content : List Char) : Bool :=
  (jsSplit '\n' content).any
      (fun l => ['/', '/'].isPrefixOf (l.dropWhile isJsWs)
        || ['/', '*'].isPrefixOf (l.dropWhile isJsWs))
    || ['/', '/'].isPrefixOf content
    || hasSlashesNotAfterQuote content

/-- The routing condition the code actually implements, as a proposition
(the amended claim C3): the first non-whitespace characters of the content
are not `//`, `/*` occurs nowhere, and no `//` is immediately preceded by a
character other than `:` or `"`. -/
def specStrictCond (content : List Char) : Prop :=
  ¬ (['/', '/'] <+: content.dropWhile isJsWs)
  ∧ ¬ (['/', '*'] <:+: content)
  ∧ ¬ ∃ x ch y, content = x ++ ch :: '/' :: '/' :: y ∧ ch ≠ ':' ∧ ch ≠ '"'

/-- `formatJSON` from `scripts/format.ts` lines 115-130: route to the
JSONC reformatter when comments are detected, otherwise try the strict
formatter and fall back to the JSONC reformatter when it fails. -/
def formatJSON (content : List Char) : List Char :=
  if hasComments content then formatJSONC content
  else
    match formatPureJSON content with
    | some out => out
    | none => formatJSONC content

/-! ## Spec-side line classifiers for formatJSONC (claim C5's wording) -/

/-- A comment-only line: the trimmed text begins with `//`, `/*`, or `*`. -/
def specCommentLine (t : List Char) : Prop :=
  ['/', '/'] <+: t ∨ ['/', '*'] <+: t ∨ ['*'] <+: t

/-- A closing-prefixed line: the trimmed text begins with `}` or `]`. -/
def specClosing (t : List Char) : Prop :=
  t.head? = some '\x7d' ∨ t.head? = some ']'

/-- A same-line bracket pair: an opening delimiter with a matching closing
delimiter later on the same line. -/
def specSameLinePair (t : List Char) : Prop :=
  (∃ x y z, t = x ++ '[' :: y ++ ']' :: z)
  ∨ (∃ x y z, t = x ++ '\x7b' :: y ++ '\x7d' :: z)

/-- The increment condition as claim C5 words it: the trimmed line ends
with `{` or `[` and does not also contain a same-line bracket pair. -/
def specEndsOpening (t : List Char) : Prop :=
  (t.getLast? = some '\x7b' ∨ t.getLast? = some '[') ∧ ¬ specSameLinePair t

/-! ## TOML formatter (`formatTOML`, `scripts/format.ts` lines 165-201) -/

/-- Trailing-whitespace test on a line. -/
def hasTrailingWs (l : List Char) : Bool :=
  match l.getLast? with
  | some c => isJsWs c
  | none => false

/-- Per-line step of `formatTOML` (lines 167-181): strip trailing
whitespace; when the line contains `=` and its trimmed form is not a `#`
comment, split on every `=`, re-join the tail with `=` (preserving embedded
equals signs), and emit `key = value` with single spaces, provided the key
part is non-empty (JavaScript truthiness of the first split part). -/
def tomlLine (l : List Char) : List Char :=
  let f := jsTrimEnd l
  if f.contains '=' && !(['#'].isPrefixOf (jsTrim f)) then
    match jsSplit '=' f with
    | [] => f
    | key :: valueParts =>
      if key ≠ [] then
        jsTrimEnd key ++ ' ' :: '=' :: ' ' :: jsTrimStart (joinSep '=' valueParts)
      else f
  else f

/-- Blank-line collapsing of lines 184-193: a blank line following a kept
blank line is dropped (`continue` leaves `prevEmpty` unchanged). -/
def collapseBlanks (prevEmpty : Bool) : List (List Char) → List (List Char)
  | [] => []
  | l :: r =>
    if (jsTrim l).isEmpty && prevEmpty then collapseBlanks prevEmpty r
    else l :: collapseBlanks (jsTrim l).isEmpty r

/-- `formatTOML` from `scripts/format.ts` lines 165-201. -/
def formatTOML (content : List Char) : List Char :=
  let result := collapseBlanks false ((splitLinesJS content).map tomlLine)
  let output := joinNL result
  if output.getLast? = some '\n' then output else output ++ ['\n']

/-! ## Pattern registry (`loadConfig`, `scripts/check-secrets.ts` lines 80-116) -/

/-- A secret-detection rule (`SecretPattern` interface, lines 10-15). -/
structure SecretPattern where
  name : List Char
  pattern : List Char
  context : Option (List (List Char))
  description : List Char
  deriving DecidableEq

/-- The configuration (`SecretsConfig` interface, lines 17-21). -/
structure SecretsConfig where
  patterns : List SecretPattern
  ignorePatterns : List (List Char)
  fileExtensions : List (List Char)
  deriving DecidableEq

/-- A single-quote character, kept out of string literals. -/
def sqChar : Char := Char.ofNat 39

/-- Regex source of the built-in `Generic API Key` pattern (lines 95-96). -/
def apiKeyPatternSrc : List Char :=
  chars "[Aa][Pp][Ii][-_]?[Kk][Ee][Yy][\"" ++ [sqChar] ++ chars "]?\\s*[:=]\\s*[\""
    ++ [sqChar] ++ chars "][A-Za-z0-9_-]\x7b16,\x7d[\"" ++ [sqChar] ++ chars "]"

/-- Regex source of the built-in `Generic Secret` pattern (lines 101-102). -/
def secretPatternSrc : List Char :=
  chars "[Ss][Ee][Cc][Rr][Ee][Tt][\"" ++ [sqChar] ++ chars "]?\\s*[:=]\\s*[\""
    ++ [sqChar] ++ chars "][A-Za-z0-9_-]\x7b8,\x7d[\"" ++ [sqChar] ++ chars "]"

/-- Regex source of the built-in `Generic Password` pattern (lines 107-108). -/
def passwordPatternSrc : List Char :=
  chars "[Pp][Aa][Ss][Ss][Ww][Oo][Rr][Dd][\"" ++ [sqChar] ++ chars "]?\\s*[:=]\\s*[\""
    ++ [sqChar] ++ chars "][^\"" ++ [sqChar] ++ chars "]\x7b4,\x7d[\"" ++ [sqChar] ++ chars "]"

/-- The built-in default configuration returned by the `catch` branch of
`loadConfig` (lines 91-114). -/
def defaultConfig : SecretsConfig where
  patterns :=
    [⟨chars "Generic API Key", apiKeyPatternSrc, none, chars "Generic API Key pattern"⟩,
     ⟨chars "Generic Secret", secretPatternSrc, none, chars "Generic Secret pattern"⟩,
     ⟨chars "Generic Password", passwordPatternSrc, none, chars "Generic Password pattern"⟩]
  ignorePatterns :=
    [chars "**/node_modules/**", chars "**/.git/**", chars "**/dist/**"]
  fileExtensions :=
    [chars ".json", chars ".yaml", chars ".yml", chars ".toml", chars ".env"]

/-- `loadConfig` from `scripts/check-secrets.ts` lines 80-116.  The file
read and `file.json()` are modelled by an `Except` argument: `.error` when
reading or JSON-parsing throws (missing file, malformed JSON), `.ok j` with
the parsed JSON value otherwise.  On success the TypeScript code returns
`content as SecretsConfig` - an unchecked cast - modelled by handing back
the raw JSON value unvalidated (`Sum.inl`); only the catch branch builds a
typed configuration (`Sum.inr`). -/
def loadConfig (readResult : Except Unit JVal) : JVal ⊕ SecretsConfig :=
  match readResult with
  | .ok j => .inl j
  | .error _ => .inr defaultConfig

/-- Shape test used only to state schema mismatch: every value conforming
to the `SecretsConfig` interface is a JSON object. -/
def isObjShape : JVal → Bool
  | .jobj _ => true
  | _ => false

/-! ## Glob matching and the scan walk (`scripts/check-secrets.ts`
lines 55-75 and 237-281) -/

/-- Tokens of the regex `minimatch` builds from a glob (lines 63-69):
escaped dots and other characters are literals, `**` becomes `.*`, `*`
becomes `[^/]*`, `?` becomes `.`. -/
inductive GTok : Type where
  | lit : Char → GTok
  | star : GTok
  | gstar : GTok
  | anyc : GTok
  deriving DecidableEq

/-- Glob-to-token translation following the replacement chain of
lines 63-69. -/
def globToks : List Char → List GTok
  | [] => []
  | '*' :: '*' :: r => .gstar :: globToks r
  | '*' :: r => .star :: globToks r
  | '?' :: r => .anyc :: globToks r
  | c :: r => .lit c :: globToks r

/-- Fueled matcher for the converted pattern against a whole string:
`star` matches any run without `/`, `gstar` any run, `anyc` one character
(paths contain no newline, so `.` is any character).  Any fuel above
`toks.length + s.length` is enough. -/
def gmatchF : Nat → List GTok → List Char → Bool
  | 0, _, _ => false
  | fuel + 1, toks, s =>
    match toks with
    | [] => s.isEmpty
    | .lit c :: ts =>
      match s with
      | x :: xs => c == x && gmatchF fuel ts xs
      | [] => false
    | .anyc :: ts =>
      match s with
      | _ :: xs => gmatchF fuel ts xs
      | [] => false
    | .star :: ts =>
      gmatchF fuel ts s
        || (match s with
            | x :: xs => !(x == '/') && gmatchF fuel (.star :: ts) xs
            | [] => false)
    | .gstar :: ts =>
      gmatchF fuel ts s
        || (match s with
            | _ :: xs => gmatchF fuel (.gstar :: ts) xs
            | [] => false)

/-- Anchored match of a converted glob. -/
def gmatch (toks : List GTok) (s : List Char) : Bool :=
  gmatchF (toks.length + s.length + 1) toks s

/-- `minimatch` from `scripts/check-secrets.ts` lines 58-75: the regex
`^P$|/P$|^P/|/P/` searched in the path, that is: the pattern matches the
whole path, a suffix after a `/`, a prefix before a `/`, or a segment
between two `/`. -/
def minimatch (path pattern : List Char) : Bool :=
  let P := globToks pattern
  let n := path.length
  gmatch P path
    || (List.range n).any (fun i =>
        (path.getD i ' ' == '/')
          && (gmatch P (path.drop (i + 1))
            || gmatch P (path.take i)
            || (List.range n).any (fun j =>
                decide (i < j) && (path.getD j ' ' == '/')
                  && gmatch P ((path.take j).drop (i + 1)))))

/-- `shouldIgnore` from lines 121-124, over the path relative to the scan
root (the path separators are already normalized here). -/
def shouldIgnore (relativePath : List Char) (ignorePatterns : List (List Char)) : Bool :=
  ignorePatterns.any fun pat => minimatch relativePath pat

/-- Node's `extname`: the extension of the last path component (empty when
the only dot is the leading one, as in dotfiles). -/
def extName (path : List Char) : List Char :=
  let base := (path.reverse.takeWhile (fun c => !(c == '/'))).reverse
  let tail := (base.reverse.takeWhile (fun c => !(c == '.'))).reverse
  if tail.length = base.length then []
  else if base.length = tail.length + 1 then []
  else '.' :: tail

/-- `hasValidExtension` from lines 129-139, with the special `.env` prefix
rule on the file name. -/
def hasValidExtension (filePath : List Char) (extensions : List (List Char)) : Bool :=
  let ext := lowerChars (extName filePath)
  let fileName := (jsSplit '/' filePath).getLast?.getD []
  extensions.any fun allowedExt =>
    if ['.', 'e', 'n', 'v'].isPrefixOf allowedExt then
      ['.', 'e', 'n', 'v'].isPrefixOf fileName
    else ext == allowedExt

mutual
/-- The file-system tree handed to the walk: a directory listing is the
ordered result of `readdir`, and `stat` outcomes are encoded by the
constructors. -/
inductive FSEntry : Type where
  | file : List Char → FSEntry
  | dir : List Char → FSList → FSEntry
  deriving DecidableEq
inductive FSList : Type where
  | fnil : FSList
  | fcons : FSEntry → FSList → FSList
  deriving DecidableEq
end

/-- Name of a directory entry. -/
def entryName : FSEntry → List Char
  | .file n => n
  | .dir n _ => n

/-- `join(currentDir, entry)` on root-relative paths. -/
def joinPath (dir name : List Char) : List Char :=
  if dir = [] then name else dir ++ '/' :: name

mutual
/-- One entry of the `walk` of `scanDirectory` (lines 244-277), after the
ignore check: a regular file bumps the scanned counter and is collected
when its extension passes; a directory recurses unless hidden (dotted) and
not `.config`.  Returns (collected files, scanned count). -/
def walkEntry (cfg : SecretsConfig) (dirPath : List Char) :
    FSEntry → List (List Char) × Nat
  | .file name =>
    if hasValidExtension (joinPath dirPath name) cfg.fileExtensions then
      ([joinPath dirPath name], 1)
    else ([], 1)
  | .dir name children =>
    if !(['.'].isPrefixOf name) || name = chars ".config" then
      walkList cfg (joinPath dirPath name) children
    else ([], 0)
/-- The entry loop of `walk`: ignored paths are skipped before `stat`, so
before the extension is ever examined. -/
def walkList (cfg : SecretsConfig) (dirPath : List Char) :
    FSList → List (List Char) × Nat
  | .fnil => ([], 0)
  | .fcons e tl =>
    if shouldIgnore (joinPath dirPath (entryName e)) cfg.ignorePatterns then
      walkList cfg dirPath tl
    else
      ((walkEntry cfg dirPath e).1 ++ (walkList cfg dirPath tl).1,
        (walkEntry cfg dirPath e).2 + (walkList cfg dirPath tl).2)
end

/-- `scanDirectory` from lines 237-281 on a root listing. -/
def scanDirectory (cfg : SecretsConfig) (root : FSList) : List (List Char) × Nat :=
  walkList cfg [] root

/-- The aggregate result (`ScanResult` interface, lines 34-39). -/
structure ScanResult where
  totalFiles : Nat
  scannedFiles : Nat
  hasSecrets : Bool
  deriving DecidableEq

/-- Construction of the `ScanResult` in `main` (lines 425-430):
`totalFiles` is the number of collected (extension-passing) files and
`scannedFiles` the scanned counter. -/
def mkScanResult (cfg : SecretsConfig) (root : FSList) (matchCount : Nat) : ScanResult where
  totalFiles := (scanDirectory cfg root).1.length
  scannedFiles := (scanDirectory cfg root).2
  hasSecrets := decide (0 < matchCount)

/-! ## Helper lemmas -/

theorem toNat_ofNat_valid {n : Nat} (h : n < 0xd800) : (Char.ofNat n).toNat = n := by
  rw [Char.ofNat, dif_pos (Or.inl h)]
  simp [Char.ofNatAux, Char.toNat, UInt32.toNat, UInt32.ofNat', BitVec.toNat_ofNatLt]

theorem char_toNat_inj {a b : Char} (h : a.toNat = b.toNat) : a = b := by
  have ha := Char.ofNat_toNat a
  rw [h, Char.ofNat_toNat] at ha
  exact ha.symm

theorem toNat_digitChar {n : Nat} (h : n < 10) : (digitChar n).toNat = 48 + n :=
  toNat_ofNat_valid (by omega)

theorem isDigitChar_digitChar {n : Nat} (h : n < 10) :
    isDigitChar (digitChar n) = true := by
  simp [isDigitChar, toNat_digitChar h]
  omega

theorem digit_ne {d : Char} (hd : isDigitChar d = true) {c : Char}
    (hc : c.toNat < 48 ∨ 57 < c.toNat) : d ≠ c := by
  intro he
  subst he
  simp [isDigitChar] at hd
  omega

theorem digit_not_ws {d : Char} (hd : isDigitChar d = true) : isJsonWs d = false := by
  have h48 : 48 ≤ d.toNat ∧ d.toNat ≤ 57 := by simpa [isDigitChar] using hd
  simp only [isJsonWs, Bool.or_eq_false_iff, decide_eq_false_iff_not]
  refine ⟨⟨⟨?_, ?_⟩, ?_⟩, ?_⟩ <;> intro he <;> subst he <;> revert h48 <;> decide

theorem takeWhile_append_all {p : Char → Bool} {xs : List Char} (ys : List Char)
    (h : ∀ x ∈ xs, p x = true) :
    (xs ++ ys).takeWhile p = xs ++ ys.takeWhile p := by
  induction xs with
  | nil => simp
  | cons a l ih =>
    have ha : p a = true := h a (by simp)
    simp only [List.cons_append, List.takeWhile_cons, ha, if_true]
    rw [ih fun x hx => h x (by simp [hx])]

theorem dropWhile_append_all {p : Char → Bool} {xs : List Char} (ys : List Char)
    (h : ∀ x ∈ xs, p x = true) :
    (xs ++ ys).dropWhile p = ys.dropWhile p := by
  induction xs with
  | nil => simp
  | cons a l ih =>
    have ha : p a = true := h a (by simp)
    simp only [List.cons_append, List.dropWhile_cons, ha, if_true]
    exact ih fun x hx => h x (by simp [hx])

theorem takeWhile_cons_false {p : Char → Bool} {c : Char} (t : List Char)
    (h : p c = false) : (c :: t).takeWhile p = [] := by
  simp [List.takeWhile_cons, h]

theorem dropWhile_cons_false {p : Char → Bool} {c : Char} (t : List Char)
    (h : p c = false) : (c :: t).dropWhile p = c :: t := by
  simp [List.dropWhile_cons, h]

theorem skipWs_append_ws {w : List Char} (t : List Char)
    (h : ∀ c ∈ w, isJsonWs c = true) : skipWs (w ++ t) = skipWs t :=
  dropWhile_append_all t h

theorem skipWs_cons_not {c : Char} (t : List Char) (h : isJsonWs c = false) :
    skipWs (c :: t) = c :: t :=
  dropWhile_cons_false t h

theorem indentChars_ws {d : Nat} : ∀ c ∈ indentChars d, isJsonWs c = true := by
  intro c hc
  rw [indentChars, List.mem_replicate] at hc
  rw [hc.2]
  decide

theorem natToCharsAux_acc :
    ∀ (fuel n : Nat) (acc : List Char),
      natToCharsAux fuel n acc = natToCharsAux fuel n [] ++ acc := by
  intro fuel
  induction fuel with
  | zero => intro n acc; rfl
  | succ f ih =>
    intro n acc
    by_cases h : n < 10
    · simp [natToCharsAux, h]
    · simp only [natToCharsAux, h, if_false]
      rw [ih (n / 10) (digitChar (n % 10) :: acc), ih (n / 10) [digitChar (n % 10)]]
      simp

theorem natToCharsAux_fuel :
    ∀ (f g n : Nat) (acc : List Char), n < f → n < g →
      natToCharsAux f n acc = natToCharsAux g n acc := by
  intro f
  induction f with
  | zero => intro g n acc h1; omega
  | succ f' ih =>
    intro g n acc h1 h2
    cases g with
    | zero => omega
    | succ g' =>
      by_cases h : n < 10
      · simp [natToCharsAux, h]
      · simp only [natToCharsAux, h, if_false]
        exact ih g' (n / 10) _ (by omega) (by omega)

theorem natToChars_lt {n : Nat} (h : n < 10) : natToChars n = [digitChar n] := by
  simp [natToChars, natToCharsAux, h]

theorem natToChars_ge {n : Nat} (h : 10 ≤ n) :
    natToChars n = natToChars (n / 10) ++ [digitChar (n % 10)] := by
  have step : natToCharsAux (n + 1) n [] = natToCharsAux n (n / 10) [digitChar (n % 10)] := by
    simp [natToCharsAux, Nat.not_lt.mpr h]
  rw [natToChars, step, natToCharsAux_acc n (n / 10) [digitChar (n % 10)],
    natToCharsAux_fuel n (n / 10 + 1) (n / 10) [] (by omega) (by omega)]
  rfl

theorem natToChars_ne_nil (n : Nat) : natToChars n ≠ [] := by
  by_cases h : n < 10
  · rw [natToChars_lt h]
    simp
  · rw [natToChars_ge (by omega)]
    simp

theorem natToChars_digits : ∀ n : Nat, ∀ c ∈ natToChars n, isDigitChar c = true := by
  intro n
  induction n using Nat.strong_induction_on with
  | _ n ih =>
    by_cases h : n < 10
    · rw [natToChars_lt h]
      intro c hc
      rw [List.mem_singleton] at hc
      rw [hc]
      exact isDigitChar_digitChar h
    · rw [natToChars_ge (by omega)]
      intro c hc
      rw [List.mem_append] at hc
      rcases hc with hc | hc
      · exact ih (n / 10) (by omega) c hc
      · rw [List.mem_singleton] at hc
        rw [hc]
        exact isDigitChar_digitChar (by omega)

theorem natToChars_head_ne_zero : ∀ n : Nat, n ≠ 0 →
    (natToChars n).head? ≠ some '0' := by
  intro n
  induction n using Nat.strong_induction_on with
  | _ n ih =>
    intro hn
    by_cases h : n < 10
    · rw [natToChars_lt h]
      intro he
      rw [List.head?_cons, Option.some_inj] at he
      have := congrArg Char.toNat he
      rw [toNat_digitChar h] at this
      have hz : ('0').toNat = 48 := by decide
      omega
    · rw [natToChars_ge (by omega)]
      obtain ⟨d, ds, hds⟩ := List.exists_cons_of_ne_nil (natToChars_ne_nil (n / 10))
      rw [hds, List.cons_append, List.head?_cons]
      have := ih (n / 10) (by omega) (by omega)
      rw [hds, List.head?_cons] at this
      exact this

theorem digitsToNat_append1 (ds : List Char) (d : Char) :
    digitsToNat (ds ++ [d]) = 10 * digitsToNat ds + (d.toNat - 48) := by
  simp [digitsToNat, List.foldl_append]
  omega

theorem digitsToNat_natToChars : ∀ n : Nat, digitsToNat (natToChars n) = n := by
  intro n
  induction n using Nat.strong_induction_on with
  | _ n ih =>
    by_cases h : n < 10
    · rw [natToChars_lt h]
      simp [digitsToNat, toNat_digitChar h]
    · rw [natToChars_ge (by omega), digitsToNat_append1,
        ih (n / 10) (by omega), toNat_digitChar (by omega : n % 10 < 10)]
      omega

theorem restSafe_head {rest : List Char} (h : restSafe rest) :
    rest.head? = none ∨ rest.head? = some ',' ∨ rest.head? = some '\n' := by
  cases rest with
  | nil => simp
  | cons c t =>
    rcases h with h | h <;> simp [h]

theorem parseUInt_natToChars (n : Nat) (rest : List Char) (h : restSafe rest) :
    parseUInt (natToChars n ++ rest) = some (n, rest) := by
  have hds := natToChars_digits n
  have htake : (natToChars n ++ rest).takeWhile isDigitChar = natToChars n := by
    rw [takeWhile_append_all rest hds]
    rcases restSafe_head h with hh | hh | hh
    · rw [List.head?_eq_none_iff] at hh
      simp [hh]
    · obtain ⟨t, ht⟩ : ∃ t, rest = ',' :: t := by
        cases rest with
        | nil => simp at hh
        | cons c t => rw [List.head?_cons, Option.some_inj] at hh; exact ⟨t, by rw [hh]⟩
      rw [ht, takeWhile_cons_false t (by decide), List.append_nil]
    · obtain ⟨t, ht⟩ : ∃ t, rest = '\n' :: t := by
        cases rest with
        | nil => simp at hh
        | cons c t => rw [List.head?_cons, Option.some_inj] at hh; exact ⟨t, by rw [hh]⟩
      rw [ht, takeWhile_cons_false t (by decide), List.append_nil]
  have hdrop : (natToChars n ++ rest).dropWhile isDigitChar = rest := by
    rw [dropWhile_append_all rest hds]
    rcases restSafe_head h with hh | hh | hh
    · rw [List.head?_eq_none_iff] at hh
      simp [hh]
    · obtain ⟨t, ht⟩ : ∃ t, rest = ',' :: t := by
        cases rest with
        | nil => simp at hh
        | cons c t => rw [List.head?_cons, Option.some_inj] at hh; exact ⟨t, by rw [hh]⟩
      rw [ht, dropWhile_cons_false t (by decide)]
    · obtain ⟨t, ht⟩ : ∃ t, rest = '\n' :: t := by
        cases rest with
        | nil => simp at hh
        | cons c t => rw [List.head?_cons, Option.some_inj] at hh; exact ⟨t, by rw [hh]⟩
      rw [ht, dropWhile_cons_false t (by decide)]
  rw [parseUInt]
  simp only [htake, hdrop]
  rw [if_neg (natToChars_ne_nil n)]
  have hzero : ¬((natToChars n).head? = some '0' ∧ (natToChars n).length ≠ 1) := by
    by_cases hn : n = 0
    · subst hn
      rw [natToChars_lt (by omega)]
      simp
    · intro ⟨h1, _⟩
      exact natToChars_head_ne_zero n hn h1
  rw [if_neg hzero]
  have hdot : ¬(rest.head? = some '.' ∨ rest.head? = some 'e' ∨ rest.head? = some 'E') := by
    rcases restSafe_head h with hh | hh | hh <;> rw [hh] <;> simp
  rw [if_neg hdot, digitsToNat_natToChars]

theorem jsSplit_ne_nil (sep : Char) (l : List Char) : jsSplit sep l ≠ [] := by
  cases l with
  | nil => simp [jsSplit]
  | cons c cs =>
    by_cases h : c = sep
    · simp [jsSplit, h]
    · cases hj : jsSplit sep cs <;> simp [jsSplit, h, hj]

theorem jsSplit_no_sep {sep : Char} {l : List Char} (h : sep ∉ l) :
    jsSplit sep l = [l] := by
  induction l with
  | nil => rfl
  | cons c cs ih =>
    simp only [List.mem_cons, not_or] at h
    have hc : ¬ c = sep := fun hcs => h.1 hcs.symm
    simp [jsSplit, hc, ih h.2]

theorem jsSplit_append {sep : Char} (A B : List Char) (hB : sep ∉ B) :
    jsSplit sep (A ++ sep :: B) = jsSplit sep A ++ [B] := by
  induction A with
  | nil => simp [jsSplit, jsSplit_no_sep hB]
  | cons a A' ih =>
    by_cases h : a = sep
    · subst h
      simp [jsSplit, ih]
    · cases hj : jsSplit sep A' with
      | nil => exact absurd hj (jsSplit_ne_nil sep A')
      | cons x xs => simp [jsSplit, h, ih, hj]

theorem length_jsSplit (sep : Char) (l : List Char) :
    (jsSplit sep l).length = l.count sep + 1 := by
  induction l with
  | nil => simp [jsSplit]
  | cons c cs ih =>
    by_cases h : c = sep
    · subst h
      simp [jsSplit, ih, List.count_cons]
    · cases hj : jsSplit sep cs with
      | nil => exact absurd hj (jsSplit_ne_nil sep cs)
      | cons x xs =>
        have := ih
        rw [hj] at this
        simp only [jsSplit, if_neg h, hj, List.length_cons, List.count_cons]
        simp only [List.length_cons] at this
        have hbeq : (c == sep) = false := by simp [h]
        simp only [hbeq, Bool.false_eq_true, if_false]
        omega

theorem containsSub_iff (n h : List Char) : containsSub n h = true ↔ n <:+: h := by
  simp only [containsSub, List.any_eq_true, List.mem_tails]
  constructor
  · rintro ⟨t, ht, hp⟩
    exact List.infix_iff_prefix_suffix.mpr ⟨t, List.isPrefixOf_iff_prefix.mp hp, ht⟩
  · intro hinf
    rcases List.infix_iff_prefix_suffix.mp hinf with ⟨t, hp, ht⟩
    exact ⟨t, ht, List.isPrefixOf_iff_prefix.mpr hp⟩

theorem surroundingText_eq_window (content : List Char) (i L : Nat) :
    surroundingText content i L = lowerChars (contextWindow content i L) := by
  simp [surroundingText, contextWindow, lowerChars, List.drop_take]

theorem hexDigitChar_spec {k : Nat} (h : k < 16) :
    isHexDigit (hexDigitChar k) = true ∧ hexVal (hexDigitChar k) = k := by
  by_cases h10 : k < 10
  · rw [hexDigitChar, if_pos h10]
    have ht := toNat_digitChar h10
    constructor
    · simp only [isHexDigit, ht]
      simp
      omega
    · rw [hexVal, ht, if_pos (by omega)]
      omega
  · rw [hexDigitChar, if_neg h10]
    have ht : (Char.ofNat (87 + k)).toNat = 87 + k := toNat_ofNat_valid (by omega)
    constructor
    · simp only [isHexDigit, ht]
      simp
      omega
    · rw [hexVal, ht, if_neg (by omega), if_neg (by omega)]
      omega

theorem parseStrBodyF_escChar (fuel : Nat) (c : Char) (tail : List Char) :
    parseStrBodyF (fuel + 1) (escChar c ++ tail)
      = (parseStrBodyF fuel tail).map fun p => (c :: p.1, p.2) := by
  by_cases h1 : c = '"'
  · subst h1
    simp [escChar, parseStrBodyF, unescapeChar]
  by_cases h2 : c = '\\'
  · subst h2
    simp [escChar, parseStrBodyF, unescapeChar]
  by_cases h3 : c = '\x08'
  · subst h3
    simp [escChar, parseStrBodyF, unescapeChar]
  by_cases h4 : c = '\t'
  · subst h4
    simp [escChar, parseStrBodyF, unescapeChar]
  by_cases h5 : c = '\n'
  · subst h5
    simp [escChar, parseStrBodyF, unescapeChar]
  by_cases h6 : c = '\x0c'
  · subst h6
    simp [escChar, parseStrBodyF, unescapeChar]
  by_cases h7 : c = '\r'
  · subst h7
    simp [escChar, parseStrBodyF, unescapeChar]
  by_cases h8 : c.toNat < 32
  · rw [escChar, if_neg h1, if_neg h2, if_neg h3, if_neg h4, if_neg h5, if_neg h6,
      if_neg h7, if_pos h8]
    have hhi := hexDigitChar_spec (show c.toNat / 16 < 16 by omega)
    have hlo := hexDigitChar_spec (show c.toNat % 16 < 16 by omega)
    simp only [List.cons_append, List.nil_append, parseStrBodyF]
    simp [hhi.1, hlo.1, hhi.2, hlo.2, show isHexDigit '0' = true from by decide]
    have hv : 4096 * hexVal '0' + 256 * hexVal '0' + 16 * (c.toNat / 16) + c.toNat % 16
        = c.toNat := by
      have h0 : hexVal '0' = 0 := by decide
      rw [h0]
      omega
    rw [hv, Char.ofNat_toNat]
  · rw [escChar, if_neg h1, if_neg h2, if_neg h3, if_neg h4, if_neg h5, if_neg h6,
      if_neg h7, if_neg h8]
    simp only [List.cons_append, List.nil_append, parseStrBodyF,
      if_neg h1, if_neg h2, if_pos (show 32 ≤ c.toNat by omega)]

theorem escChar_length_pos (c : Char) : 1 ≤ (escChar c).length := by
  rw [escChar]
  split
  · simp
  split
  · simp
  split
  · simp
  split
  · simp
  split
  · simp
  split
  · simp
  split
  · simp
  split
  · simp
  · simp

theorem escStr_length_ge (s : List Char) : s.length ≤ (escStr s).length := by
  induction s with
  | nil => simp [escStr]
  | cons c s2 ih =>
    rw [escStr]
    have := escChar_length_pos c
    simp only [List.length_append, List.length_cons]
    omega

theorem parseStrBodyF_escStr :
    ∀ (s : List Char) (F : Nat) (rest : List Char),
      parseStrBodyF (s.length + 1 + F) (escStr s ++ '"' :: rest) = some (s, rest) := by
  intro s
  induction s with
  | nil =>
    intro F rest
    rw [show ([] : List Char).length + 1 + F = F + 1 by simp [Nat.add_comm]]
    simp [escStr, parseStrBodyF]
  | cons c s2 ih =>
    intro F rest
    rw [show (c :: s2).length + 1 + F = (s2.length + 1 + F) + 1 by simp; omega]
    rw [escStr, List.append_assoc, parseStrBodyF_escChar, ih]
    rfl

theorem parseStrBody_escStr (s rest : List Char) :
    parseStrBody (escStr s ++ '"' :: rest) = some (s, rest) := by
  rw [parseStrBody]
  have hge := escStr_length_ge s
  rw [show (escStr s ++ '"' :: rest).length + 1
      = s.length + 1 + ((escStr s).length - s.length + rest.length + 1) by
    simp [List.length_append]
    omega]
  exact parseStrBodyF_escStr s _ rest

theorem serVal_head_ok (ind : Nat) (v : JVal) :
    ∃ c t, serVal ind v = c :: t ∧ headOK c := by
  cases v with
  | null => exact ⟨'n', _, rfl, by decide, by decide, by decide, by decide⟩
  | jbool b =>
    cases b with
    | false => exact ⟨'f', _, rfl, by decide, by decide, by decide, by decide⟩
    | true => exact ⟨'t', _, rfl, by decide, by decide, by decide, by decide⟩
  | jnum n =>
    by_cases hn : n < 0
    · refine ⟨'-', natToChars n.natAbs, ?_, by decide, by decide, by decide, by decide⟩
      simp [serVal, intToChars, hn]
    · obtain ⟨d, ds, hds⟩ :=
        List.exists_cons_of_ne_nil (natToChars_ne_nil n.toNat)
      have hdig : isDigitChar d = true := by
        apply natToChars_digits n.toNat
        rw [hds]
        simp
      refine ⟨d, ds, ?_, digit_not_ws hdig,
        digit_ne hdig (Or.inr (by decide)), digit_ne hdig (Or.inr (by decide)),
        digit_ne hdig (Or.inl (by decide))⟩
      simp [serVal, intToChars, hn, hds]
  | jstr s => exact ⟨'"', _, rfl, by decide, by decide, by decide, by decide⟩
  | jarr a =>
    cases a with
    | anil => exact ⟨'[', _, rfl, by decide, by decide, by decide, by decide⟩
    | acons v tl => exact ⟨'[', _, rfl, by decide, by decide, by decide, by decide⟩
  | jobj o =>
    cases o with
    | onil => exact ⟨'\x7b', _, rfl, by decide, by decide, by decide, by decide⟩
    | ocons k v tl => exact ⟨'\x7b', _, rfl, by decide, by decide, by decide, by decide⟩

theorem parseVal_ws_prefix (fuel : Nat) {w : List Char} (x : List Char)
    (h : ∀ c ∈ w, isJsonWs c = true) :
    parseVal fuel (w ++ x) = parseVal fuel x := by
  cases fuel with
  | zero => rfl
  | succ f => simp only [parseVal, skipWs_append_ws x h]

theorem serItems_acons_decomp (ind : Nat) (v : JVal) (tl : JArr) :
    ∃ X, serItems ind (.acons v tl) = indentChars ind ++ (serVal ind v ++ X) := by
  cases tl with
  | anil => exact ⟨[], by simp [serItems]⟩
  | acons w tw =>
    exact ⟨',' :: '\n' :: serItems ind (.acons w tw), by simp [serItems]⟩

theorem serFields_ocons_decomp (ind : Nat) (k : List Char) (v : JVal) (tl : JObj) :
    ∃ Y, serFields ind (.ocons k v tl)
      = indentChars ind
        ++ ('"' :: (escStr k ++ ('"' :: (':' :: (' ' :: (serVal ind v ++ Y)))))) := by
  cases tl with
  | onil => exact ⟨[], by simp [serFields, serStr]⟩
  | ocons k2 v2 tw =>
    exact ⟨',' :: '\n' :: serFields ind (.ocons k2 v2 tw), by
      simp [serFields, serStr]⟩

theorem ws_cons_indent (indI : Nat) :
    ∀ c ∈ ('\n' :: indentChars indI), isJsonWs c = true := by
  intro c hc
  rcases List.mem_cons.mp hc with rfl | hc
  · decide
  · exact indentChars_ws c hc

theorem skipWs_nl_indent (indC : Nat) (c : Char) (t : List Char)
    (hc : isJsonWs c = false) :
    skipWs ('\n' :: indentChars indC ++ (c :: t)) = c :: t := by
  rw [show '\n' :: indentChars indC ++ (c :: t)
      = ('\n' :: indentChars indC) ++ (c :: t) from by simp,
    skipWs_append_ws _ (ws_cons_indent indC), skipWs_cons_not _ hc]

mutual
theorem rtV : ∀ (v : JVal) (F ind : Nat) (rest : List Char), restSafe rest →
    parseVal (fuelV v + F) (serVal ind v ++ rest) = some (v, rest)
  | .null, F, ind, rest, _ => by
    rw [show fuelV JVal.null + F = F + 1 from by simp only [fuelV]; omega,
      show serVal ind JVal.null = ['n', 'u', 'l', 'l'] from rfl]
    simp [parseVal, skipWs, List.dropWhile_cons, isJsonWs, List.isPrefixOf]
  | .jbool false, F, ind, rest, _ => by
    rw [show fuelV (JVal.jbool false) + F = F + 1 from by simp only [fuelV]; omega,
      show serVal ind (JVal.jbool false) = ['f', 'a', 'l', 's', 'e'] from rfl]
    simp [parseVal, skipWs, List.dropWhile_cons, isJsonWs, List.isPrefixOf]
  | .jbool true, F, ind, rest, _ => by
    rw [show fuelV (JVal.jbool true) + F = F + 1 from by simp only [fuelV]; omega,
      show serVal ind (JVal.jbool true) = ['t', 'r', 'u', 'e'] from rfl]
    simp [parseVal, skipWs, List.dropWhile_cons, isJsonWs, List.isPrefixOf]
  | .jstr s, F, ind, rest, _ => by
    rw [show fuelV (JVal.jstr s) + F = F + 1 from by simp only [fuelV]; omega,
      show serVal ind (JVal.jstr s) = '"' :: (escStr s ++ ['"']) from rfl,
      show ('"' :: (escStr s ++ ['"'])) ++ rest
        = '"' :: (escStr s ++ '"' :: rest) from by simp]
    simp only [parseVal]
    rw [skipWs_cons_not _ (by decide)]
    dsimp only
    rw [if_neg (show ¬('"' = 'n') from by decide),
      if_neg (show ¬('"' = 't') from by decide),
      if_neg (show ¬('"' = 'f') from by decide), if_pos rfl,
      parseStrBody_escStr]
    rfl
  | .jnum n, F, ind, rest, h => by
    rw [show fuelV (JVal.jnum n) + F = F + 1 from by simp only [fuelV]; omega]
    by_cases hn : n < 0
    · rw [show serVal ind (JVal.jnum n) = '-' :: natToChars n.natAbs from by
        simp [serVal, intToChars, hn]]
      simp only [List.cons_append, parseVal]
      rw [skipWs_cons_not _ (by decide)]
      dsimp only
      rw [if_neg (show ¬('-' = 'n') from by decide),
        if_neg (show ¬('-' = 't') from by decide),
        if_neg (show ¬('-' = 'f') from by decide),
        if_neg (show ¬('-' = '"') from by decide),
        if_neg (show ¬('-' = '[') from by decide),
        if_neg (show ¬('-' = '\x7b') from by decide),
        parseNumFrom, if_pos rfl, parseUInt_natToChars _ _ h]
      dsimp only [Option.map]
      rw [show -((n.natAbs : Nat) : Int) = n from by omega]
    · obtain ⟨d, ds, hds⟩ :=
        List.exists_cons_of_ne_nil (natToChars_ne_nil n.toNat)
      have hdig : isDigitChar d = true := by
        apply natToChars_digits n.toNat
        rw [hds]
        simp
      rw [show serVal ind (JVal.jnum n) = natToChars n.toNat from by
        simp [serVal, intToChars, hn], hds]
      simp only [List.cons_append, parseVal]
      rw [skipWs_cons_not _ (digit_not_ws hdig)]
      dsimp only
      rw [if_neg (digit_ne hdig (Or.inr (by decide))),
        if_neg (digit_ne hdig (Or.inr (by decide))),
        if_neg (digit_ne hdig (Or.inr (by decide))),
        if_neg (digit_ne hdig (Or.inl (by decide))),
        if_neg (digit_ne hdig (Or.inr (by decide))),
        if_neg (digit_ne hdig (Or.inr (by decide))),
        parseNumFrom, if_neg (digit_ne hdig (Or.inl (by decide))), if_pos hdig,
        show d :: (ds ++ rest) = natToChars n.toNat ++ rest from by rw [hds]; simp,
        parseUInt_natToChars _ _ h]
      dsimp only [Option.map]
      rw [show ((n.toNat : Nat) : Int) = n from by omega]
  | .jarr .anil, F, ind, rest, _ => by
    rw [show fuelV (JVal.jarr .anil) + F = (F + 1) + 1 from by
      rw [show fuelV (JVal.jarr .anil) = 2 from rfl]; omega,
      show serVal ind (JVal.jarr .anil) = ['[', ']'] from rfl]
    simp [parseVal, skipWs, List.dropWhile_cons, isJsonWs]
  | .jarr (.acons v tl), F, ind, rest, h => by
    rw [show fuelV (JVal.jarr (.acons v tl)) + F = (fuelA (.acons v tl) + F) + 1 from by
      rw [show fuelV (JVal.jarr (.acons v tl)) = 1 + fuelA (.acons v tl) from rfl]; omega,
      show serVal ind (JVal.jarr (.acons v tl)) ++ rest
        = '[' :: ('\n' :: serItems (ind + 1) (.acons v tl)
          ++ ('\n' :: indentChars ind ++ (']' :: rest))) from by
        simp [serVal]]
    simp only [parseVal]
    rw [skipWs_cons_not _ (by decide)]
    dsimp only
    rw [if_neg (show ¬('[' = 'n') from by decide),
      if_neg (show ¬('[' = 't') from by decide),
      if_neg (show ¬('[' = 'f') from by decide),
      if_neg (show ¬('[' = '"') from by decide), if_pos rfl]
    obtain ⟨c2, t2, hser, hok⟩ := serVal_head_ok (ind + 1) v
    obtain ⟨X, hX⟩ := serItems_acons_decomp (ind + 1) v tl
    have hskip : skipWs ('\n' :: serItems (ind + 1) (.acons v tl)
        ++ ('\n' :: indentChars ind ++ (']' :: rest)))
        = c2 :: (t2 ++ (X ++ ('\n' :: indentChars ind ++ (']' :: rest)))) := by
      rw [hX, hser,
        show '\n' :: (indentChars (ind + 1) ++ (c2 :: t2 ++ X))
            ++ ('\n' :: indentChars ind ++ (']' :: rest))
          = ('\n' :: indentChars (ind + 1))
            ++ (c2 :: (t2 ++ (X ++ ('\n' :: indentChars ind ++ (']' :: rest))))) from by
          simp,
        skipWs_append_ws _ (ws_cons_indent (ind + 1)), skipWs_cons_not _ hok.1]
    rw [hskip]
    split
    · next r2 heq =>
      injection heq with h1 _
      exact absurd h1 hok.2.1
    · rw [rtA (.acons v tl) F (ind + 1) ind rest (by simp) h]
      rfl
  | .jobj .onil, F, ind, rest, _ => by
    rw [show fuelV (JVal.jobj .onil) + F = (F + 1) + 1 from by
      rw [show fuelV (JVal.jobj .onil) = 2 from rfl]; omega,
      show serVal ind (JVal.jobj .onil) = ['\x7b', '\x7d'] from rfl]
    simp [parseVal, skipWs, List.dropWhile_cons, isJsonWs]
  | .jobj (.ocons k v tl), F, ind, rest, h => by
    rw [show fuelV (JVal.jobj (.ocons k v tl)) + F = (fuelO (.ocons k v tl) + F) + 1 from by
      rw [show fuelV (JVal.jobj (.ocons k v tl)) = 1 + fuelO (.ocons k v tl) from rfl]; omega,
      show serVal ind (JVal.jobj (.ocons k v tl)) ++ rest
        = '\x7b' :: ('\n' :: serFields (ind + 1) (.ocons k v tl)
          ++ ('\n' :: indentChars ind ++ ('\x7d' :: rest))) from by
        simp [serVal]]
    simp only [parseVal]
    rw [skipWs_cons_not _ (by decide)]
    dsimp only
    rw [if_neg (show ¬('\x7b' = 'n') from by decide),
      if_neg (show ¬('\x7b' = 't') from by decide),
      if_neg (show ¬('\x7b' = 'f') from by decide),
      if_neg (show ¬('\x7b' = '"') from by decide),
      if_neg (show ¬('\x7b' = '[') from by decide), if_pos rfl]
    obtain ⟨Y, hY⟩ := serFields_ocons_decomp (ind + 1) k v tl
    have hskip : skipWs ('\n' :: serFields (ind + 1) (.ocons k v tl)
        ++ ('\n' :: indentChars ind ++ ('\x7d' :: rest)))
        = '"' :: (escStr k ++ ('"' :: (':' :: (' ' :: (serVal (ind + 1) v
            ++ (Y ++ ('\n' :: indentChars ind ++ ('\x7d' :: rest)))))))) := by
      rw [hY,
        show '\n' :: (indentChars (ind + 1)
            ++ ('"' :: (escStr k ++ ('"' :: (':' :: (' ' :: (serVal (ind + 1) v ++ Y)))))))
            ++ ('\n' :: indentChars ind ++ ('\x7d' :: rest))
          = ('\n' :: indentChars (ind + 1))
            ++ ('"' :: (escStr k ++ ('"' :: (':' :: (' ' :: (serVal (ind + 1) v
              ++ (Y ++ ('\n' :: indentChars ind ++ ('\x7d' :: rest))))))))) from by
          simp,
        skipWs_append_ws _ (ws_cons_indent (ind + 1)), skipWs_cons_not _ (by decide)]
    rw [hskip]
    split
    · next r2 heq =>
      injection heq with h1 _
      exact absurd h1 (by decide)
    · rw [rtO (.ocons k v tl) F (ind + 1) ind rest (by simp) h]
      rfl
theorem rtA : ∀ (a : JArr) (F indI indC : Nat) (rest : List Char),
    a ≠ .anil → restSafe rest →
    parseItems (fuelA a + F)
      ('\n' :: serItems indI a ++ ('\n' :: indentChars indC ++ (']' :: rest)))
      = some (a, rest)
  | .anil, _, _, _, _, hne, _ => absurd rfl hne
  | .acons v .anil, F, indI, indC, rest, _, h => by
    rw [show fuelA (.acons v .anil) + F = (fuelV v + (F + 1)) + 1 from by
      rw [show fuelA (.acons v .anil) = 1 + fuelV v + 1 from rfl]; omega]
    simp only [parseItems]
    rw [show '\n' :: serItems indI (.acons v .anil)
          ++ ('\n' :: indentChars indC ++ (']' :: rest))
        = ('\n' :: indentChars indI)
          ++ (serVal indI v ++ ('\n' :: indentChars indC ++ (']' :: rest))) from by
      simp [serItems],
      parseVal_ws_prefix _ _ (ws_cons_indent indI),
      rtV v (F + 1) indI _ (by simp [restSafe])]
    dsimp only
    rw [skipWs_nl_indent indC ']' rest (by decide)]
    rfl
  | .acons v (.acons w tw), F, indI, indC, rest, _, h => by
    rw [show fuelA (.acons v (.acons w tw)) + F
        = (fuelV v + (fuelA (.acons w tw) + F)) + 1 from by
      rw [show fuelA (.acons v (.acons w tw)) = 1 + fuelV v + fuelA (.acons w tw) from rfl]
      omega]
    simp only [parseItems]
    rw [show '\n' :: serItems indI (.acons v (.acons w tw))
          ++ ('\n' :: indentChars indC ++ (']' :: rest))
        = ('\n' :: indentChars indI)
          ++ (serVal indI v ++ (',' :: ('\n' :: serItems indI (.acons w tw)
            ++ ('\n' :: indentChars indC ++ (']' :: rest))))) from by
      simp [serItems],
      parseVal_ws_prefix _ _ (ws_cons_indent indI),
      rtV v (fuelA (.acons w tw) + F) indI _ (by simp [restSafe])]
    dsimp only
    rw [skipWs_cons_not _ (by decide)]
    simp only []
    rw [show fuelV v + (fuelA (.acons w tw) + F)
        = fuelA (.acons w tw) + (fuelV v + F) from by omega,
      rtA (.acons w tw) (fuelV v + F) indI indC rest (by simp) h]
    rfl
theorem rtO : ∀ (o : JObj) (F indI indC : Nat) (rest : List Char),
    o ≠ .onil → restSafe rest →
    parseFields (fuelO o + F)
      ('\n' :: serFields indI o ++ ('\n' :: indentChars indC ++ ('\x7d' :: rest)))
      = some (o, rest)
  | .onil, _, _, _, _, hne, _ => absurd rfl hne
  | .ocons k v .onil, F, indI, indC, rest, _, h => by
    rw [show fuelO (.ocons k v .onil) + F = (fuelV v + (F + 1)) + 1 from by
      rw [show fuelO (.ocons k v .onil) = 1 + fuelV v + 1 from rfl]; omega]
    simp only [parseFields]
    rw [show '\n' :: serFields indI (.ocons k v .onil)
          ++ ('\n' :: indentChars indC ++ ('\x7d' :: rest))
        = ('\n' :: indentChars indI)
          ++ ('"' :: (escStr k ++ ('"' :: (':' :: (' ' :: (serVal indI v
            ++ ('\n' :: indentChars indC ++ ('\x7d' :: rest)))))))) from by
      simp [serFields, serStr],
      skipWs_append_ws _ (ws_cons_indent indI), skipWs_cons_not _ (by decide)]
    simp only []
    rw [parseStrBody_escStr]
    dsimp only
    rw [skipWs_cons_not _ (by decide)]
    simp only []
    rw [show ' ' :: (serVal indI v ++ ('\n' :: indentChars indC ++ ('\x7d' :: rest)))
        = [' '] ++ (serVal indI v ++ ('\n' :: indentChars indC ++ ('\x7d' :: rest)))
        from by simp,
      parseVal_ws_prefix _ _ (by intro c hc; rw [List.mem_singleton] at hc; rw [hc]; rfl),
      rtV v (F + 1) indI _ (by simp [restSafe])]
    dsimp only
    rw [skipWs_nl_indent indC '\x7d' rest (by decide)]
    rfl
  | .ocons k v (.ocons k2 v2 tw), F, indI, indC, rest, _, h => by
    rw [show fuelO (.ocons k v (.ocons k2 v2 tw)) + F
        = (fuelV v + (fuelO (.ocons k2 v2 tw) + F)) + 1 from by
      rw [show fuelO (.ocons k v (.ocons k2 v2 tw))
          = 1 + fuelV v + fuelO (.ocons k2 v2 tw) from rfl]
      omega]
    simp only [parseFields]
    rw [show '\n' :: serFields indI (.ocons k v (.ocons k2 v2 tw))
          ++ ('\n' :: indentChars indC ++ ('\x7d' :: rest))
        = ('\n' :: indentChars indI)
          ++ ('"' :: (escStr k ++ ('"' :: (':' :: (' ' :: (serVal indI v
            ++ (',' :: ('\n' :: serFields indI (.ocons k2 v2 tw)
              ++ ('\n' :: indentChars indC ++ ('\x7d' :: rest)))))))))) from by
      simp [serFields, serStr],
      skipWs_append_ws _ (ws_cons_indent indI), skipWs_cons_not _ (by decide)]
    simp only []
    rw [parseStrBody_escStr]
    dsimp only
    rw [skipWs_cons_not _ (by decide)]
    simp only []
    rw [show ' ' :: (serVal indI v ++ (',' :: ('\n' :: serFields indI (.ocons k2 v2 tw)
          ++ ('\n' :: indentChars indC ++ ('\x7d' :: rest)))))
        = [' '] ++ (serVal indI v ++ (',' :: ('\n' :: serFields indI (.ocons k2 v2 tw)
          ++ ('\n' :: indentChars indC ++ ('\x7d' :: rest))))) from by simp,
      parseVal_ws_prefix _ _ (by intro c hc; rw [List.mem_singleton] at hc; rw [hc]; rfl),
      rtV v (fuelO (.ocons k2 v2 tw) + F) indI _ (by simp [restSafe])]
    dsimp only
    rw [skipWs_cons_not _ (by decide)]
    simp only []
    rw [show fuelV v + (fuelO (.ocons k2 v2 tw) + F)
        = fuelO (.ocons k2 v2 tw) + (fuelV v + F) from by omega,
      rtO (.ocons k2 v2 tw) (fuelV v + F) indI indC rest (by simp) h]
    rfl
end


mutual
theorem fuelV_le : ∀ (v : JVal) (ind : Nat), fuelV v ≤ (serVal ind v).length
  | .null, ind => by
    rw [show fuelV JVal.null = 1 from rfl, show serVal ind JVal.null = ['n','u','l','l'] from rfl]
    simp
  | .jbool false, ind => by
    rw [show fuelV (JVal.jbool false) = 1 from rfl,
      show serVal ind (JVal.jbool false) = ['f','a','l','s','e'] from rfl]
    simp
  | .jbool true, ind => by
    rw [show fuelV (JVal.jbool true) = 1 from rfl,
      show serVal ind (JVal.jbool true) = ['t','r','u','e'] from rfl]
    simp
  | .jnum n, ind => by
    rw [show fuelV (JVal.jnum n) = 1 from rfl,
      show serVal ind (JVal.jnum n) = intToChars n from rfl, intToChars]
    split
    · simp
    · have h1 : 0 < (natToChars n.toNat).length :=
        List.length_pos.mpr (natToChars_ne_nil n.toNat)
      omega
  | .jstr s, ind => by
    rw [show fuelV (JVal.jstr s) = 1 from rfl,
      show serVal ind (JVal.jstr s) = '"' :: (escStr s ++ ['"']) from rfl]
    simp
  | .jarr .anil, ind => by
    rw [show fuelV (JVal.jarr .anil) = 2 from rfl,
      show serVal ind (JVal.jarr .anil) = ['[', ']'] from rfl]
    simp
  | .jarr (.acons v tl), ind => by
    have hA := fuelA_le (.acons v tl) (ind + 1) (by simp)
    rw [show fuelV (JVal.jarr (.acons v tl)) = 1 + fuelA (.acons v tl) from rfl,
      show serVal ind (JVal.jarr (.acons v tl))
        = '[' :: '\n' :: serItems (ind + 1) (.acons v tl)
          ++ '\n' :: (indentChars ind ++ [']']) from rfl]
    simp only [List.length_cons, List.length_append, List.length_singleton]
    omega
  | .jobj .onil, ind => by
    rw [show fuelV (JVal.jobj .onil) = 2 from rfl,
      show serVal ind (JVal.jobj .onil) = ['\x7b', '\x7d'] from rfl]
    simp
  | .jobj (.ocons k v tl), ind => by
    have hO := fuelO_le (.ocons k v tl) (ind + 1) (by simp)
    rw [show fuelV (JVal.jobj (.ocons k v tl)) = 1 + fuelO (.ocons k v tl) from rfl,
      show serVal ind (JVal.jobj (.ocons k v tl))
        = '\x7b' :: '\n' :: serFields (ind + 1) (.ocons k v tl)
          ++ '\n' :: (indentChars ind ++ ['\x7d']) from rfl]
    simp only [List.length_cons, List.length_append, List.length_singleton]
    omega
theorem fuelA_le : ∀ (a : JArr) (ind : Nat), a ≠ .anil →
    fuelA a ≤ (serItems ind a).length + 2
  | .anil, _, hne => absurd rfl hne
  | .acons v .anil, ind, _ => by
    have hV := fuelV_le v ind
    rw [show fuelA (.acons v .anil) = 1 + fuelV v + 1 from rfl,
      show serItems ind (.acons v .anil) = indentChars ind ++ serVal ind v from rfl]
    simp only [List.length_append]
    omega
  | .acons v (.acons w tw), ind, _ => by
    have hV := fuelV_le v ind
    have hA := fuelA_le (.acons w tw) ind (by simp)
    rw [show fuelA (.acons v (.acons w tw)) = 1 + fuelV v + fuelA (.acons w tw) from rfl,
      show serItems ind (.acons v (.acons w tw))
        = indentChars ind ++ serVal ind v
          ++ ',' :: '\n' :: serItems ind (.acons w tw) from rfl]
    simp only [List.length_append, List.length_cons]
    omega
theorem fuelO_le : ∀ (o : JObj) (ind : Nat), o ≠ .onil →
    fuelO o ≤ (serFields ind o).length + 2
  | .onil, _, hne => absurd rfl hne
  | .ocons k v .onil, ind, _ => by
    have hV := fuelV_le v ind
    rw [show fuelO (.ocons k v .onil) = 1 + fuelV v + 1 from rfl,
      show serFields ind (.ocons k v .onil)
        = indentChars ind ++ serStr k ++ ':' :: ' ' :: serVal ind v from rfl]
    simp only [List.length_append, List.length_cons]
    omega
  | .ocons k v (.ocons k2 v2 tw), ind, _ => by
    have hV := fuelV_le v ind
    have hO := fuelO_le (.ocons k2 v2 tw) ind (by simp)
    rw [show fuelO (.ocons k v (.ocons k2 v2 tw))
        = 1 + fuelV v + fuelO (.ocons k2 v2 tw) from rfl,
      show serFields ind (.ocons k v (.ocons k2 v2 tw))
        = indentChars ind ++ serStr k ++ ':' :: ' ' :: serVal ind v
          ++ ',' :: '\n' :: serFields ind (.ocons k2 v2 tw) from rfl]
    simp only [List.length_append, List.length_cons]
    omega
end

theorem parseJSON_serVal (v : JVal) : parseJSON (serVal 0 v ++ ['\n']) = some v := by
  rw [parseJSON]
  have hle : fuelV v ≤ (serVal 0 v ++ ['\n']).length + 2 := by
    have := fuelV_le v 0
    simp only [List.length_append, List.length_singleton]
    omega
  rw [show (serVal 0 v ++ ['\n']).length + 2
      = fuelV v + ((serVal 0 v ++ ['\n']).length + 2 - fuelV v) from by omega,
    rtV v _ 0 ['\n'] (by simp [restSafe])]
  simp [skipWs, List.dropWhile, isJsonWs]

/-! ## Claim theorems -/

/-- Claim C1 (amended): the masking function agrees with the specification's
rule for every input (in particular it is total), its output length is
`min (input length) 24`, a length-8 input is fully masked, and the 21-character
example masks to `"1234"`, 13 asterisks and the final four characters `"8901"`
of the input. -/
theorem mask_secret_follows_rule :
    (∀ v : List Char, maskSecret v = maskSecretSpec v) ∧
    (∀ v : List Char, (maskSecret v).length = min v.length 24) ∧
    maskSecret (chars "abcd1234") = chars "********" ∧
    maskSecret (chars "123456789012345678901") = chars "1234*************8901" := by
  refine ⟨fun v => rfl, fun v => ?_, by decide, by decide⟩
  unfold maskSecret
  split
  · simp only [List.length_replicate]
    omega
  · simp only [List.length_append, List.length_take, List.length_replicate,
      List.length_drop]
    omega

/-- Claim C1, counterexample to the claim as stated: the claimed value of
`mask("123456789012345678901")` ends in `"7890"`, but the last four characters
of that 21-character input are `"8901"`, and the code reveals those. -/
theorem mask_secret_claimed_example_false :
    maskSecret (chars "123456789012345678901") ≠ chars "1234*************7890" := by
  decide

/-- Claim C2: for a pattern with a non-empty context keyword list, a match at
offset `i` of length `L` is kept if and only if some keyword occurs
case-insensitively in the window extending 100 characters before the match's
start and 100 characters after its end; concretely, context `["database"]`
discards the match on `secret = "abcdefgh12345678"` when `database` is absent,
and keeps it when `database` occurs within the window. -/
theorem scan_context_gating :
    (∀ (ctxs : List (List Char)) (content : List Char) (i L : Nat), ctxs ≠ [] →
      (keepMatch ctxs content i L = true ↔
        ∃ ctx ∈ ctxs, lowerChars ctx <:+: lowerChars (contextWindow content i L))) ∧
    keepMatch [chars "database"] (chars "secret = \"abcdefgh12345678\"") 0 27 = false ∧
    keepMatch [chars "database"]
      (chars "database_host: x\nsecret = \"abcdefgh12345678\"") 17 27 = true := by
  refine ⟨fun ctxs content i L hne => ?_, by decide, by decide⟩
  have hlen : 0 < ctxs.length := List.length_pos.mpr hne
  simp only [keepMatch, if_pos hlen, hasContext, List.any_eq_true,
    containsSub_iff, surroundingText_eq_window]

/-- Witness for claim C2's theorem at a concrete input: the context list
`["database"]` is non-empty and the gating equivalence holds for the content
whose second line holds the secret. -/
theorem scan_context_gating_witness :
    ([chars "database"] ≠ ([] : List (List Char))) ∧
    (keepMatch [chars "database"]
        (chars "database_host: x\nsecret = \"abcdefgh12345678\"") 17 27 = true ↔
      ∃ ctx ∈ [chars "database"], lowerChars ctx <:+:
        lowerChars (contextWindow
          (chars "database_host: x\nsecret = \"abcdefgh12345678\"") 17 27)) :=
  ⟨by decide, scan_context_gating.1 _ _ _ _ (by decide)⟩

/-- Claim C6: the reported line number is the count of newline characters
before the match offset plus one; the reported column is the offset minus the
index of the last newline before it (or offset plus one when no newline
precedes it), both 1-based; and the concrete two-line content reports
line 2, column 1 for the match starting at offset 2. -/
theorem line_column_reported :
    (∀ (content : List Char) (i : Nat),
      (getLineContext content i).1 = (content.take i).count '\n' + 1) ∧
    (∀ (content : List Char) (i k : Nat), i ≤ content.length → k < i →
      content[k]? = some '\n' →
      (∀ m, k < m → m < i → content[m]? ≠ some '\n') →
      (getLineContext content i).2.1 = i - k) ∧
    (∀ (content : List Char) (i : Nat), i ≤ content.length →
      (∀ m, m < i → content[m]? ≠ some '\n') →
      (getLineContext content i).2.1 = i + 1) ∧
    getLineContext (chars "a\napiKey: \"0123456789abcdef\"\n") 2
      = (2, 1, chars "apiKey: \"0123456789abcdef\"") := by
  refine ⟨fun content i => ?_, fun content i k hi hki hk hlast => ?_,
    fun content i hi hnone => ?_, by decide⟩
  · simp [getLineContext, length_jsSplit]
  · have hlen : (content.take i).length = i := by
      simp [List.length_take]
      omega
    have hk' : (content.take i)[k]? = some '\n' := by
      rw [List.getElem?_take_of_lt hki]
      exact hk
    obtain ⟨hklt, hkeq⟩ := List.getElem?_eq_some_iff.mp hk'
    have hsplit : content.take i =
        (content.take i).take k ++ '\n' :: (content.take i).drop (k + 1) := by
      conv_lhs => rw [← List.take_append_drop k (content.take i)]
      rw [List.drop_eq_getElem_cons hklt, hkeq]
    have hB : '\n' ∉ (content.take i).drop (k + 1) := by
      intro hmem
      obtain ⟨m, hm, hget⟩ := List.getElem_of_mem hmem
      have hidx : content[k + 1 + m]? = some '\n' := by
        have : ((content.take i).drop (k + 1))[m]? = some '\n' := by
          rw [List.getElem?_eq_some_iff]
          exact ⟨hm, hget⟩
        rw [List.getElem?_drop] at this
        have hlt : k + 1 + m < i := by
          have := hm
          simp [List.length_drop, hlen] at this
          omega
        rw [List.getElem?_take_of_lt hlt] at this
        exact this
      have hlt : k + 1 + m < i := by
        have := hm
        simp [List.length_drop, hlen] at this
        omega
      exact hlast (k + 1 + m) (by omega) hlt hidx
    simp only [getLineContext]
    rw [hsplit, jsSplit_append _ _ hB, List.getLast?_concat]
    simp only [Option.getD_some, List.length_drop, hlen]
    omega
  · have hnl : '\n' ∉ content.take i := by
      intro hmem
      obtain ⟨m, hm, hget⟩ := List.getElem_of_mem hmem
      have hmi : m < i := by
        have := hm
        simp [List.length_take] at this
        omega
      have : content[m]? = some '\n' := by
        have h' : (content.take i)[m]? = some '\n' := by
          rw [List.getElem?_eq_some_iff]
          exact ⟨hm, hget⟩
        rw [List.getElem?_take_of_lt hmi] at h'
        exact h'
      exact hnone m hmi this
    have hlen : (content.take i).length = i := by
      simp [List.length_take]
      omega
    simp only [getLineContext]
    rw [jsSplit_no_sep hnl]
    simp [hlen]

/-- Witness for claim C6's theorem: for the concrete content the last newline
before offset 2 is at index 1, and the reported column is 2 - 1 = 1. -/
theorem line_column_reported_witness :
    (2 ≤ (chars "a\napiKey: \"0123456789abcdef\"\n").length) ∧
    ((chars "a\napiKey: \"0123456789abcdef\"\n")[1]? = some '\n') ∧
    ((getLineContext (chars "a\napiKey: \"0123456789abcdef\"\n") 2).2.1 = 2 - 1) :=
  ⟨by decide, by decide,
    line_column_reported.2.1 (chars "a\napiKey: \"0123456789abcdef\"\n") 2 1
      (by decide) (by decide) (by decide)
      (fun m h1 h2 => absurd h1 (by omega))⟩

/-- Claim C4: the canonical JSON formatter (strict parse then re-serialize
with 2-space indentation and one trailing newline) is idempotent on every
content it accepts, and the concrete document yields exactly the claimed
pretty form with each array element on its own 4-space-indented line. -/
theorem canonical_json_idempotent :
    (∀ x y : List Char, formatPureJSON x = some y → formatPureJSON y = some y) ∧
    formatPureJSON (chars "\x7b\"a\":1,\"b\":[1,2,3]\x7d")
      = some (chars "\x7b\n  \"a\": 1,\n  \"b\": [\n    1,\n    2,\n    3\n  ]\n\x7d\n") := by
  constructor
  · intro x y hxy
    simp only [formatPureJSON] at hxy
    obtain ⟨v, _, hy⟩ := Option.map_eq_some'.mp hxy
    subst hy
    simp only [formatPureJSON, parseJSON_serVal v, Option.map_some']
  · rfl

/-- Witness for claim C4's theorem: formatting the concrete document and
formatting its own output produce the same text. -/
theorem canonical_json_idempotent_witness :
    formatPureJSON (chars "\x7b\"a\":1,\"b\":[1,2,3]\x7d")
      = some (chars "\x7b\n  \"a\": 1,\n  \"b\": [\n    1,\n    2,\n    3\n  ]\n\x7d\n") ∧
    formatPureJSON (chars "\x7b\n  \"a\": 1,\n  \"b\": [\n    1,\n    2,\n    3\n  ]\n\x7d\n")
      = some (chars "\x7b\n  \"a\": 1,\n  \"b\": [\n    1,\n    2,\n    3\n  ]\n\x7d\n") :=
  ⟨by rfl, canonical_json_idempotent.1 (chars "\x7b\"a\":1,\"b\":[1,2,3]\x7d") _ (by rfl)⟩

theorem hasBadSlashes_iff : ∀ (content : List Char),
    hasBadSlashes content = true ↔
      ∃ x ch y, content = x ++ ch :: '/' :: '/' :: y ∧ ch ≠ ':' ∧ ch ≠ '"'
  | [] => by
    simp only [hasBadSlashes, Bool.false_eq_true, false_iff]
    rintro ⟨x, ch, y, heq, -, -⟩
    have hl := congrArg List.length heq
    simp [List.length_append] at hl
    omega
  | [a] => by
    simp only [hasBadSlashes, Bool.false_eq_true, false_iff]
    rintro ⟨x, ch, y, heq, -, -⟩
    have hl := congrArg List.length heq
    simp [List.length_append] at hl
    omega
  | [a, b] => by
    simp only [hasBadSlashes, Bool.false_eq_true, false_iff]
    rintro ⟨x, ch, y, heq, -, -⟩
    have hl := congrArg List.length heq
    simp [List.length_append] at hl
    omega
  | a :: b :: c :: r => by
    rw [show hasBadSlashes (a :: b :: c :: r)
        = ((!(a == ':') && !(a == '"') && b == '/' && c == '/')
          || hasBadSlashes (b :: c :: r)) from rfl,
      Bool.or_eq_true, hasBadSlashes_iff (b :: c :: r)]
    constructor
    · rintro (hc | ⟨x, ch, y, heq, h1, h2⟩)
      · simp only [Bool.and_eq_true, Bool.not_eq_true', beq_eq_false_iff_ne,
          beq_iff_eq] at hc
        obtain ⟨⟨⟨ha1, ha2⟩, hb⟩, hcc⟩ := hc
        exact ⟨[], a, r, by rw [hb, hcc]; rfl, ha1, ha2⟩
      · exact ⟨a :: x, ch, y, by rw [List.cons_append, heq], h1, h2⟩
    · rintro ⟨x, ch, y, heq, h1, h2⟩
      cases x with
      | nil =>
        left
        simp only [List.nil_append] at heq
        injection heq with e1 heq
        injection heq with e2 heq
        injection heq with e3 _
        subst e1
        subst e2
        subst e3
        simp only [Bool.and_eq_true, Bool.not_eq_true', beq_eq_false_iff_ne,
          beq_iff_eq, and_true]
        exact ⟨h1, h2⟩
      | cons a2 x2 =>
        right
        rw [List.cons_append] at heq
        injection heq with e1 heq
        exact ⟨x2, ch, y, heq, h1, h2⟩

theorem spec_strict_iff (content : List Char) :
    specStrictCond content ↔ hasComments content = false := by
  rw [specStrictCond, hasComments, Bool.or_eq_false_iff, Bool.or_eq_false_iff]
  have e1 : ['/', '/'].isPrefixOf (content.dropWhile isJsWs) = false
      ↔ ¬ (['/', '/'] <+: content.dropWhile isJsWs) := by
    rw [← Bool.not_eq_true, List.isPrefixOf_iff_prefix]
  have e2 : containsSub ['/', '*'] content = false ↔ ¬ (['/', '*'] <:+: content) := by
    rw [← Bool.not_eq_true, containsSub_iff]
  have e3 : hasBadSlashes content = false
      ↔ ¬ ∃ x ch y, content = x ++ ch :: '/' :: '/' :: y ∧ ch ≠ ':' ∧ ch ≠ '"' := by
    rw [← Bool.not_eq_true, hasBadSlashes_iff]
  rw [e1, e2, e3]
  tauto

/-- Claim C3, counterexample to the claim as stated: the content
`{"u":"http://x"}` contains `//` preceded by `:` (not a quote), so the
claimed condition calls it comment-bearing and demands the JSONC route,
yet the code's detection finds no comment and routes it to the strict
formatter, whose output differs from the JSONC reformatter's. -/
theorem json_dispatch_claim_false :
    claimedHasComments (chars "\x7b\"u\":\"http://x\"\x7d") = true ∧
    hasComments (chars "\x7b\"u\":\"http://x\"\x7d") = false ∧
    formatJSON (chars "\x7b\"u\":\"http://x\"\x7d")
      = chars "\x7b\n  \"u\": \"http://x\"\n\x7d\n" ∧
    formatJSONC (chars "\x7b\"u\":\"http://x\"\x7d")
      ≠ chars "\x7b\n  \"u\": \"http://x\"\n\x7d\n" :=
  ⟨by decide, by decide, by rfl, by decide⟩

/-- Claim C3 (amended): content is routed to the strict formatter exactly
when its first non-whitespace characters are not `//`, it contains no `/*`
anywhere, and no occurrence of `//` is immediately preceded by a character
other than `:` or `"`; on that route a failed strict parse falls back to
the JSONC reformatter; and the input `// comment` followed by the
one-line object is detected as comment-bearing, routed to the JSONC
reformatter, with the comment line verbatim in the output. -/
theorem json_dispatch_routing :
    (∀ content : List Char, specStrictCond content ↔ hasComments content = false) ∧
    (∀ content : List Char, hasComments content = false →
      formatJSON content = (formatPureJSON content).getD (formatJSONC content)) ∧
    formatJSON (chars "// comment\n\x7b\"a\":1\x7d")
      = chars "// comment\n\x7b\"a\":1\x7d\n" ∧
    (chars "// comment") ∈ jsSplit '\n' (formatJSON (chars "// comment\n\x7b\"a\":1\x7d")) := by
  refine ⟨spec_strict_iff, fun content hc => ?_, by rfl, by decide⟩
  rw [formatJSON, if_neg (by rw [hc]; simp)]
  cases hp : formatPureJSON content <;> simp [Option.getD]

/-- Witness for claim C3's theorem: a comment-free one-line object is
routed to the strict formatter. -/
theorem json_dispatch_routing_witness :
    hasComments (chars "\x7b\"a\":1\x7d") = false ∧
    formatJSON (chars "\x7b\"a\":1\x7d")
      = (formatPureJSON (chars "\x7b\"a\":1\x7d")).getD (formatJSONC (chars "\x7b\"a\":1\x7d")) :=
  ⟨by decide, json_dispatch_routing.2.1 _ (by decide)⟩

theorem startsComment_iff (t : List Char) :
    startsComment t = true ↔ specCommentLine t := by
  simp [startsComment, specCommentLine, List.isPrefixOf_iff_prefix, or_assoc]

theorem startsClosing_iff (t : List Char) :
    startsClosing t = true ↔ specClosing t := by
  simp [startsClosing, specClosing]

theorem hasPairBr_iff (o c : Char) :
    ∀ t, hasPairBr o c t = true ↔ ∃ x y z, t = x ++ o :: y ++ c :: z
  | [] => by
    simp only [hasPairBr, Bool.false_eq_true, false_iff]
    rintro ⟨x, y, z, heq⟩
    have hl := congrArg List.length heq
    simp [List.length_append] at hl
    omega
  | x :: r => by
    rw [show hasPairBr o c (x :: r) = ((x == o && r.contains c) || hasPairBr o c r)
        from rfl,
      Bool.or_eq_true, hasPairBr_iff o c r]
    constructor
    · rintro (hc | ⟨a, y, z, heq⟩)
      · simp only [Bool.and_eq_true, beq_iff_eq, List.contains, List.elem_iff] at hc
        obtain ⟨s, t2, hst⟩ := List.append_of_mem hc.2
        exact ⟨[], s, t2, by rw [List.nil_append, hc.1, hst]; simp⟩
      · exact ⟨x :: a, y, z, by rw [heq]; simp⟩
    · rintro ⟨a, y, z, heq⟩
      cases a with
      | nil =>
        left
        simp only [List.nil_append] at heq
        injection heq with e1 e2
        simp only [Bool.and_eq_true, beq_iff_eq, List.contains, List.elem_iff]
        exact ⟨e1, by rw [e2]; simp⟩
      | cons a0 a2 =>
        right
        rw [List.cons_append] at heq
        injection heq with e1 e2
        exact ⟨a2, y, z, e2⟩

theorem endsOpening_iff (t : List Char) :
    endsOpening t = true ↔ specEndsOpening t := by
  rw [endsOpening, specEndsOpening, specSameLinePair]
  simp only [Bool.and_eq_true, Bool.or_eq_true, beq_iff_eq, Bool.not_eq_true',
    ← Bool.not_eq_true, hasPairBr_iff]
  constructor
  · rintro ⟨⟨hl, h1⟩, h2⟩
    refine ⟨hl, ?_⟩
    rintro (hp | hp)
    · exact h1 hp
    · exact h2 hp
  · rintro ⟨hl, hn⟩
    exact ⟨⟨hl, fun hp => hn (Or.inl hp)⟩, fun hp => hn (Or.inr hp)⟩

/-- Claim C5: line-by-line depth evolution of the JSONC reformatter.  A
comment-only line is emitted at the current depth which is left unchanged;
a closing-prefixed line is emitted at depth decremented by one (floored at
zero, via truncated subtraction); after a normal or closing line the depth
is incremented exactly when the trimmed line ends with `{` or `[` and has
no same-line bracket pair. -/
theorem jsonc_depth_evolution :
    ∀ (depth : Nat) (l : List Char), jsTrim l ≠ [] →
      (specCommentLine (jsTrim l) →
        jsoncLine depth l = (depth, indentChars depth ++ jsTrim l)) ∧
      (¬ specCommentLine (jsTrim l) → specClosing (jsTrim l) →
        (∃ body, (jsoncLine depth l).2 = indentChars (depth - 1) ++ body) ∧
        (specEndsOpening (jsTrim l) → (jsoncLine depth l).1 = (depth - 1) + 1) ∧
        (¬ specEndsOpening (jsTrim l) → (jsoncLine depth l).1 = depth - 1)) ∧
      (¬ specCommentLine (jsTrim l) → ¬ specClosing (jsTrim l) →
        (∃ body, (jsoncLine depth l).2 = indentChars depth ++ body) ∧
        (specEndsOpening (jsTrim l) → (jsoncLine depth l).1 = depth + 1) ∧
        (¬ specEndsOpening (jsTrim l) → (jsoncLine depth l).1 = depth)) := by
  intro depth l hne
  refine ⟨fun hc => ?_, fun hnc hcl => ?_, fun hnc hncl => ?_⟩
  · have hcB : startsComment (jsTrim l) = true := (startsComment_iff _).mpr hc
    simp [jsoncLine, hne, hcB]
  · have hcB : startsComment (jsTrim l) = false := by
      rw [← Bool.not_eq_true]
      exact fun hb => hnc ((startsComment_iff _).mp hb)
    have hclB : startsClosing (jsTrim l) = true := (startsClosing_iff _).mpr hcl
    refine ⟨?_, fun ho => ?_, fun hno => ?_⟩
    · cases hsp : splitInline (jsTrim l) with
      | none => exact ⟨jsTrim l, by simp [jsoncLine, hne, hcB, hclB, hsp]⟩
      | some pr =>
        exact ⟨jsTrim pr.1 ++ ' ' :: pr.2, by simp [jsoncLine, hne, hcB, hclB, hsp]⟩
    · have hoB : endsOpening (jsTrim l) = true := (endsOpening_iff _).mpr ho
      simp [jsoncLine, hne, hcB, hclB, hoB]
    · have hoB : endsOpening (jsTrim l) = false := by
        rw [← Bool.not_eq_true]
        exact fun hb => hno ((endsOpening_iff _).mp hb)
      simp [jsoncLine, hne, hcB, hclB, hoB]
  · have hcB : startsComment (jsTrim l) = false := by
      rw [← Bool.not_eq_true]
      exact fun hb => hnc ((startsComment_iff _).mp hb)
    have hclB : startsClosing (jsTrim l) = false := by
      rw [← Bool.not_eq_true]
      exact fun hb => hncl ((startsClosing_iff _).mp hb)
    refine ⟨?_, fun ho => ?_, fun hno => ?_⟩
    · cases hsp : splitInline (jsTrim l) with
      | none => exact ⟨jsTrim l, by simp [jsoncLine, hne, hcB, hclB, hsp]⟩
      | some pr =>
        exact ⟨jsTrim pr.1 ++ ' ' :: pr.2, by simp [jsoncLine, hne, hcB, hclB, hsp]⟩
    · have hoB : endsOpening (jsTrim l) = true := (endsOpening_iff _).mpr ho
      simp [jsoncLine, hne, hcB, hclB, hoB]
    · have hoB : endsOpening (jsTrim l) = false := by
        rw [← Bool.not_eq_true]
        exact fun hb => hno ((endsOpening_iff _).mp hb)
      simp [jsoncLine, hne, hcB, hclB, hoB]

/-- Witness for claim C5's theorem: the line whose trimmed text is
`"a": {` at depth 1 is a normal opening line, so the new depth is 2. -/
theorem jsonc_depth_evolution_witness :
    (jsTrim (chars "  \"a\": \x7b") ≠ []) ∧
    specEndsOpening (jsTrim (chars "  \"a\": \x7b")) ∧
    (jsoncLine 1 (chars "  \"a\": \x7b")).1 = 1 + 1 :=
  have h1 : jsTrim (chars "  \"a\": \x7b") ≠ [] := by decide
  have h2 : ¬ specCommentLine (jsTrim (chars "  \"a\": \x7b")) :=
    fun hc => absurd ((startsComment_iff _).mpr hc) (by decide)
  have h3 : ¬ specClosing (jsTrim (chars "  \"a\": \x7b")) :=
    fun hc => absurd ((startsClosing_iff _).mpr hc) (by decide)
  have h4 : specEndsOpening (jsTrim (chars "  \"a\": \x7b")) :=
    (endsOpening_iff _).mp (by decide)
  ⟨h1, h4, ((jsonc_depth_evolution 1 _ h1).2.2 h2 h3).2.1 h4⟩

/-- Counterexample to claim C7: a configuration file holding well-formed
JSON of the wrong shape (here the number `42`) is NOT replaced by the
built-in defaults - the unchecked `as SecretsConfig` cast hands the raw
parsed value back, so a schema mismatch does not trigger the fallback. -/
theorem load_config_schema_mismatch_no_fallback :
    loadConfig (Except.ok (JVal.jnum 42)) = Sum.inl (JVal.jnum 42) ∧
    isObjShape (JVal.jnum 42) = false ∧
    loadConfig (Except.ok (JVal.jnum 42)) ≠ Sum.inr defaultConfig := by
  refine ⟨rfl, rfl, fun h => ?_⟩
  exact Sum.noConfusion h

/-- Claim C7 (amended): on a load failure that throws - missing file or
malformed JSON - `loadConfig` returns, without raising, exactly the fixed
built-in default set of three patterns (generic API key, generic secret,
generic password, whose regexes require quoted runs of minimum length 16,
8 and 4 respectively), so in that case the registry is never empty;
a schema mismatch on parseable JSON, however, is passed through unvalidated. -/
theorem load_config_fallback :
    loadConfig (Except.error ()) = Sum.inr defaultConfig ∧
    defaultConfig.patterns.length = 3 ∧
    defaultConfig.patterns ≠ [] ∧
    defaultConfig.patterns.map SecretPattern.name
      = [chars "Generic API Key", chars "Generic Secret", chars "Generic Password"] ∧
    chars "\x7b16,\x7d" <:+: apiKeyPatternSrc ∧
    chars "\x7b8,\x7d" <:+: secretPatternSrc ∧
    chars "\x7b4,\x7d" <:+: passwordPatternSrc ∧
    (∀ j, loadConfig (Except.ok j) = Sum.inl j) :=
  ⟨rfl, by decide, by decide, by decide, by decide, by decide, by decide,
    fun _ => rfl⟩

/-- Claim C8: an entry whose joined path matches an ignore glob is dropped
by the walk before `stat` and before its extension is ever examined - the
walk result is the same as if the entry were absent, whatever kind of
entry it is and whatever its extension; consequently, at the root, the
`ScanResult` is unchanged in every field. -/
theorem ignored_entry_skipped (cfg : SecretsConfig) (dirPath : List Char)
    (e : FSEntry)
    (h : shouldIgnore (joinPath dirPath (entryName e)) cfg.ignorePatterns = true) :
    (∀ tl, walkList cfg dirPath (.fcons e tl) = walkList cfg dirPath tl) ∧
    (dirPath = [] → ∀ tl m,
      mkScanResult cfg (.fcons e tl) m = mkScanResult cfg tl m) := by
  have key : ∀ tl, walkList cfg dirPath (.fcons e tl) = walkList cfg dirPath tl := by
    intro tl
    rw [show walkList cfg dirPath (.fcons e tl) =
        (if shouldIgnore (joinPath dirPath (entryName e)) cfg.ignorePatterns then
          walkList cfg dirPath tl
        else ((walkEntry cfg dirPath e).1 ++ (walkList cfg dirPath tl).1,
          (walkEntry cfg dirPath e).2 + (walkList cfg dirPath tl).2)) from rfl,
      if_pos h]
  refine ⟨key, fun hd tl m => ?_⟩
  subst hd
  show ScanResult.mk _ _ _ = ScanResult.mk _ _ _
  rw [show scanDirectory cfg (.fcons e tl) = walkList cfg [] (.fcons e tl) from rfl,
    key tl]
  rfl

/-- Witness for claim C8's theorem: under the default configuration the
file `a/node_modules/b.json` matches the ignore glob
`**/node_modules/**`, so prepending it to a listing leaves the walk of
that listing unchanged. -/
theorem ignored_entry_skipped_witness :
    shouldIgnore
      (joinPath (chars "a/node_modules") (entryName (FSEntry.file (chars "b.json"))))
      defaultConfig.ignorePatterns = true ∧
    walkList defaultConfig (chars "a/node_modules")
      (.fcons (FSEntry.file (chars "b.json")) .fnil)
      = walkList defaultConfig (chars "a/node_modules") .fnil :=
  ⟨by decide,
    (ignored_entry_skipped defaultConfig (chars "a/node_modules")
      (FSEntry.file (chars "b.json")) (by decide)).1 .fnil⟩

mutual
theorem walkEntry_le (cfg : SecretsConfig) (dirPath : List Char) :
    ∀ e : FSEntry, (walkEntry cfg dirPath e).1.length ≤ (walkEntry cfg dirPath e).2
  | .file name => by
    rw [show walkEntry cfg dirPath (.file name) =
        (if hasValidExtension (joinPath dirPath name) cfg.fileExtensions then
          ([joinPath dirPath name], 1) else ([], 1)) from rfl]
    split
    · simp
    · simp
  | .dir name children => by
    rw [show walkEntry cfg dirPath (.dir name children) =
        (if !(['.'].isPrefixOf name) || name = chars ".config" then
          walkList cfg (joinPath dirPath name) children else ([], 0)) from rfl]
    split
    · exact walkList_le cfg (joinPath dirPath name) children
    · simp
theorem walkList_le (cfg : SecretsConfig) (dirPath : List Char) :
    ∀ l : FSList, (walkList cfg dirPath l).1.length ≤ (walkList cfg dirPath l).2
  | .fnil => by
    rw [show walkList cfg dirPath .fnil = ([], 0) from rfl]
    simp
  | .fcons e tl => by
    rw [show walkList cfg dirPath (.fcons e tl) =
        (if shouldIgnore (joinPath dirPath (entryName e)) cfg.ignorePatterns then
          walkList cfg dirPath tl
        else ((walkEntry cfg dirPath e).1 ++ (walkList cfg dirPath tl).1,
          (walkEntry cfg dirPath e).2 + (walkList cfg dirPath tl).2)) from rfl]
    split
    · exact walkList_le cfg dirPath tl
    · have h1 := walkEntry_le cfg dirPath e
      have h2 := walkList_le cfg dirPath tl
      simp only [List.length_append]
      omega
end

/-- Claim C10: in every `ScanResult` the run constructs,
`totalFiles ≤ scannedFiles` - the walk increments the scanned counter for
every non-ignored file it reaches but collects only those passing the
extension filter, and `main` stores the collected count in `totalFiles`
and the counter in `scannedFiles`. -/
theorem total_le_scanned (cfg : SecretsConfig) (root : FSList) (m : Nat) :
    (mkScanResult cfg root m).totalFiles ≤ (mkScanResult cfg root m).scannedFiles :=
  walkList_le cfg [] root

theorem hasTrailingWs_jsTrimEnd (l : List Char) : hasTrailingWs (jsTrimEnd l) = false := by
  rw [hasTrailingWs, jsTrimEnd, List.getLast?_reverse]
  generalize l.reverse = r
  induction r with
  | nil => rfl
  | cons c cs ih =>
    by_cases h : isJsWs c = true
    · rw [List.dropWhile_cons_of_pos h]
      exact ih
    · rw [List.dropWhile_cons_of_neg h, List.head?_cons]
      simpa using h

theorem hasTrailingWs_congr {x y : List Char} (h : x.getLast? = y.getLast?) :
    hasTrailingWs x = hasTrailingWs y := by
  rw [hasTrailingWs, hasTrailingWs, h]

theorem joinSep_jsSplit (sep : Char) (x : List Char) :
    joinSep sep (jsSplit sep x) = x := by
  induction x with
  | nil => rfl
  | cons c cs ih =>
    by_cases h : c = sep
    · subst h
      rw [show jsSplit c (c :: cs) = [] :: jsSplit c cs from by simp [jsSplit]]
      cases hj : jsSplit c cs with
      | nil => exact absurd hj (jsSplit_ne_nil c cs)
      | cons p ps =>
        rw [show joinSep c ([] :: p :: ps) = [] ++ c :: joinSep c (p :: ps) from rfl]
        rw [hj] at ih
        rw [ih]
        rfl
    · rw [show jsSplit sep (c :: cs) =
          (match jsSplit sep cs with
           | [] => [[c]]
           | h :: t => (c :: h) :: t) from by simp [jsSplit, h]]
      cases hj : jsSplit sep cs with
      | nil => exact absurd hj (jsSplit_ne_nil sep cs)
      | cons p ps =>
        rw [hj] at ih
        cases ps with
        | nil =>
          rw [show joinSep sep [c :: p] = c :: p from rfl]
          rw [show joinSep sep [p] = p from rfl] at ih
          rw [ih]
        | cons q qs =>
          rw [show joinSep sep ((c :: p) :: q :: qs)
              = (c :: p) ++ sep :: joinSep sep (q :: qs) from rfl]
          rw [show joinSep sep (p :: q :: qs)
              = p ++ sep :: joinSep sep (q :: qs) from rfl] at ih
          rw [List.cons_append, ih]

theorem jsSplit_cons_left {sep : Char} (A B : List Char) (hA : sep ∉ A) :
    jsSplit sep (A ++ sep :: B) = A :: jsSplit sep B := by
  induction A with
  | nil => simp [jsSplit]
  | cons a A2 ih =>
    simp only [List.mem_cons, not_or] at hA
    have ha : ¬ a = sep := fun hs => hA.1 hs.symm
    rw [List.cons_append,
      show jsSplit sep (a :: (A2 ++ sep :: B)) =
        (match jsSplit sep (A2 ++ sep :: B) with
         | [] => [[a]]
         | h :: t => (a :: h) :: t) from by simp [jsSplit, ha],
      ih hA.2]

theorem splitLinesJS_no_nl : ∀ content : List Char, ∀ p ∈ splitLinesJS content, '\n' ∉ p := by
  intro content
  induction content using splitLinesJS.induct with
  | case1 =>
    intro p hp
    rw [show splitLinesJS [] = [[]] from rfl] at hp
    simp at hp
    simp [hp]
  | case2 r ih =>
    intro p hp
    rw [show splitLinesJS ('\r' :: '\n' :: r) = [] :: splitLinesJS r from rfl,
      List.mem_cons] at hp
    rcases hp with h | h
    · simp [h]
    · exact ih p h
  | case3 r ih =>
    intro p hp
    rw [show splitLinesJS ('\n' :: r) = [] :: splitLinesJS r from rfl,
      List.mem_cons] at hp
    rcases hp with h | h
    · simp [h]
    · exact ih p h
  | case4 c r hne1 hne2 heq ih =>
    intro p hp
    rw [splitLinesJS.eq_def] at hp
    split at hp
    · cases ‹c :: r = []›
    · rename_i x2 r2 heq2
      injection heq2 with h1 h2
      exact (hne1 _ h1 h2).elim
    · rename_i x2 r2 heq2
      injection heq2 with h1 h2
      exact (hne2 h1).elim
    · rename_i x2 c2 r2 hx1 hx2 heq2
      injection heq2 with h1 h2
      subst h1
      subst h2
      rw [heq] at hp
      simp at hp
      subst hp
      simp
      intro hc
      exact hne2 hc.symm
  | case5 c r hne1 hne2 hd tl heq ih =>
    intro p hp
    rw [splitLinesJS.eq_def] at hp
    split at hp
    · cases ‹c :: r = []›
    · rename_i x2 r2 heq2
      injection heq2 with h1 h2
      exact (hne1 _ h1 h2).elim
    · rename_i x2 r2 heq2
      injection heq2 with h1 h2
      exact (hne2 h1).elim
    · rename_i x2 c2 r2 hx1 hx2 heq2
      injection heq2 with h1 h2
      subst h1
      subst h2
      rw [heq, List.mem_cons] at hp
      rcases hp with h | h
      · subst h
        intro hm
        rw [List.mem_cons] at hm
        rcases hm with hm | hm
        · exact hne2 hm.symm
        · exact ih hd (by rw [heq]; exact List.mem_cons_self hd tl) hm
      · exact ih p (by rw [heq]; exact List.mem_cons_of_mem hd h)

theorem mem_jsTrimEnd {a : Char} {l : List Char} (h : a ∈ jsTrimEnd l) : a ∈ l := by
  rw [jsTrimEnd, List.mem_reverse] at h
  exact List.mem_reverse.mp ((List.dropWhile_sublist isJsWs).mem h)

theorem mem_jsTrimStart {a : Char} {l : List Char} (h : a ∈ jsTrimStart l) : a ∈ l :=
  (List.dropWhile_sublist isJsWs).mem h

theorem mem_joinSep_parts {sep a : Char} {key : List Char} {vp : List (List Char)}
    (h : a ∈ joinSep sep vp) :
    a ∈ joinSep sep (key :: vp) := by
  cases vp with
  | nil => cases h
  | cons q qs =>
    rw [show joinSep sep (key :: q :: qs) = key ++ sep :: joinSep sep (q :: qs) from rfl]
    simp only [List.mem_append, List.mem_cons]
    exact Or.inr (Or.inr h)

theorem tomlLine_no_nl {l : List Char} (h : '\n' ∉ l) : '\n' ∉ tomlLine l := by
  have hf : '\n' ∉ jsTrimEnd l := fun hm => h (mem_jsTrimEnd hm)
  rw [tomlLine]
  split
  · split
    · exact hf
    · rename_i key vp hsp
      split
      · intro hm
        simp only [List.mem_append, List.mem_cons] at hm
        rcases hm with hm | hm | hm | hm | hm
        · exact hf (by
            rw [← joinSep_jsSplit '=' (jsTrimEnd l), hsp]
            cases vp with
            | nil => exact mem_jsTrimEnd hm
            | cons q qs =>
              rw [show joinSep '=' (key :: q :: qs)
                  = key ++ '=' :: joinSep '=' (q :: qs) from rfl]
              exact List.mem_append_left _ (mem_jsTrimEnd hm))
        · cases hm
        · cases hm
        · cases hm
        · exact hf (by
            rw [← joinSep_jsSplit '=' (jsTrimEnd l), hsp]
            exact mem_joinSep_parts (mem_jsTrimStart hm))
      · exact hf
  · exact hf

theorem collapseBlanks_subset : ∀ (b : Bool) (ls : List (List Char)) (p : List Char),
    p ∈ collapseBlanks b ls → p ∈ ls
  | _, [], p, hp => by cases hp
  | b, l :: r, p, hp => by
    rw [collapseBlanks] at hp
    split at hp
    · exact List.mem_cons_of_mem l (collapseBlanks_subset _ r p hp)
    · rw [List.mem_cons] at hp
      rcases hp with h | h
      · exact h ▸ List.mem_cons_self l r
      · exact List.mem_cons_of_mem l (collapseBlanks_subset _ r p h)

theorem getLast?_append_ne {α : Type _} (A B : List α) (h : B ≠ []) :
    (A ++ B).getLast? = B.getLast? := by
  rw [List.getLast?_append]
  cases hB : B.getLast? with
  | none =>
    rw [List.getLast?_eq_none_iff] at hB
    exact absurd hB h
  | some x => rfl

theorem jsSplit_joinSep (sep : Char) : ∀ ls : List (List Char),
    (∀ p ∈ ls, sep ∉ p) →
    jsSplit sep (joinSep sep ls) = if ls = [] then [[]] else ls
  | [], _ => by simp [joinSep, jsSplit]
  | [l], h => by
    rw [show joinSep sep [l] = l from rfl, jsSplit_no_sep (h l (by simp))]
    simp
  | l :: q :: qs, h => by
    rw [show joinSep sep (l :: q :: qs) = l ++ sep :: joinSep sep (q :: qs) from rfl,
      jsSplit_cons_left _ _ (h l (List.mem_cons_self l _)),
      jsSplit_joinSep sep (q :: qs) (fun p hp => h p (List.mem_cons_of_mem l hp))]
    simp

theorem formatTOML_pieces (content : List Char) :
    ∀ p ∈ jsSplit '\n' (formatTOML content),
      p = [] ∨ ∃ l0, l0 ∈ splitLinesJS content ∧ p = tomlLine l0 := by
  have hmem : ∀ q ∈ collapseBlanks false ((splitLinesJS content).map tomlLine),
      ∃ l0, l0 ∈ splitLinesJS content ∧ q = tomlLine l0 := by
    intro q hq
    have hq2 := collapseBlanks_subset _ _ _ hq
    rw [List.mem_map] at hq2
    obtain ⟨l0, hl0, he⟩ := hq2
    exact ⟨l0, hl0, he.symm⟩
  have hnl : ∀ q ∈ collapseBlanks false ((splitLinesJS content).map tomlLine),
      '\n' ∉ q := by
    intro q hq
    obtain ⟨l0, hl0, he⟩ := hmem q hq
    rw [he]
    exact tomlLine_no_nl (splitLinesJS_no_nl content l0 hl0)
  have hsplit := jsSplit_joinSep '\n' _ hnl
  have hjoin : ∀ p ∈ jsSplit '\n'
      (joinNL (collapseBlanks false ((splitLinesJS content).map tomlLine))),
      p = [] ∨ ∃ l0, l0 ∈ splitLinesJS content ∧ p = tomlLine l0 := by
    intro p hp
    rw [joinNL, hsplit] at hp
    split at hp
    · left
      simpa using hp
    · exact Or.inr (hmem p hp)
  intro p hp
  rw [formatTOML] at hp
  split at hp
  · exact hjoin p hp
  · rw [show (['\n'] : List Char) = '\n' :: [] from rfl,
      jsSplit_append _ _ (by simp), List.mem_append] at hp
    rcases hp with h | h
    · exact hjoin p h
    · left
      simpa using h

theorem tomlLine_trailing (l0 : List Char) :
    hasTrailingWs (tomlLine l0) = false ∨
    ∃ m, tomlLine l0 = m ++ [' ', '=', ' '] ∧ hasTrailingWs m = false := by
  rw [tomlLine]
  split
  · split
    · exact Or.inl (hasTrailingWs_jsTrimEnd l0)
    · rename_i key vp hsp
      split
      · cases hV : jsTrimStart (joinSep '=' vp) with
        | nil =>
          right
          exact ⟨jsTrimEnd key, rfl, hasTrailingWs_jsTrimEnd key⟩
        | cons c rest =>
          left
          have hVne : joinSep '=' vp ≠ [] := by
            intro hv
            rw [hv] at hV
            cases hV
          obtain ⟨q, qs, hvp⟩ : ∃ q qs, vp = q :: qs := by
            cases vp with
            | nil => exact absurd rfl hVne
            | cons q qs => exact ⟨q, qs, rfl⟩
          have hfeq : jsTrimEnd l0 = key ++ '=' :: joinSep '=' vp := by
            conv_lhs => rw [← joinSep_jsSplit '=' (jsTrimEnd l0), hsp, hvp]
            rw [hvp]
            rfl
          have h1 : (jsTrimEnd key ++ ' ' :: '=' :: ' '
              :: jsTrimStart (joinSep '=' vp)).getLast?
              = (jsTrimStart (joinSep '=' vp)).getLast? := by
            rw [getLast?_append_ne _ _ (by simp), hV,
              List.getLast?_cons_cons, List.getLast?_cons_cons,
              List.getLast?_cons_cons]
          have h2 : (jsTrimStart (joinSep '=' vp)).getLast?
              = (joinSep '=' vp).getLast? := by
            conv_rhs =>
              rw [← List.takeWhile_append_dropWhile isJsWs (joinSep '=' vp)]
            rw [getLast?_append_ne _ _ (by rw [jsTrimStart] at hV; rw [hV]; simp)]
            rfl
          have h3 : (joinSep '=' vp).getLast? = (jsTrimEnd l0).getLast? := by
            rw [hfeq, getLast?_append_ne _ _ (by simp),
              show ('=' :: joinSep '=' vp) = ['='] ++ joinSep '=' vp from rfl,
              getLast?_append_ne _ _ hVne]
          rw [← hV, hasTrailingWs_congr ((h1.trans h2).trans h3)]
          exact hasTrailingWs_jsTrimEnd l0
      · exact Or.inl (hasTrailingWs_jsTrimEnd l0)
  · exact Or.inl (hasTrailingWs_jsTrimEnd l0)

/-- Counterexample to claim C9: on the input `a=` the TOML formatter emits
the line `a = ` - the `key = value` normalization appends a space after the
`=` even when the value is empty, so an output line does carry trailing
whitespace. -/
theorem toml_trailing_ws_claim_false :
    formatTOML (chars "a=") = chars "a = \n" ∧
    chars "a = " ∈ jsSplit '\n' (formatTOML (chars "a=")) ∧
    hasTrailingWs (chars "a = ") = true :=
  ⟨by decide, by decide, by decide⟩

/-- Claim C9 (amended): every output line of the TOML formatter that ends
in whitespace is of the shape `m ++ " = "` for a key part `m` that itself
carries no trailing whitespace - the sole source of trailing whitespace is
the `key = value` re-join when the value is empty; all other lines are
emitted trailing-stripped. -/
theorem toml_trailing_ws_amended :
    ∀ content p, p ∈ jsSplit '\n' (formatTOML content) → hasTrailingWs p = true →
      ∃ m, p = m ++ [' ', '=', ' '] ∧ hasTrailingWs m = false := by
  intro content p hp ht
  rcases formatTOML_pieces content p hp with h | ⟨l0, hl0, he⟩
  · rw [h] at ht
    cases ht
  · subst he
    rcases tomlLine_trailing l0 with h | h
    · rw [h] at ht
      cases ht
    · exact h

/-- Witness for claim C9's theorem at the concrete input `a=` and its
trailing-whitespace output line `a = `. -/
theorem toml_trailing_ws_amended_witness :
    (chars "a = " ∈ jsSplit '\n' (formatTOML (chars "a="))) ∧
    hasTrailingWs (chars "a = ") = true ∧
    ∃ m, chars "a = " = m ++ [' ', '=', ' '] ∧ hasTrailingWs m = false :=
  ⟨by decide, by decide,
    toml_trailing_ws_amended (chars "a=") (chars "a = ") (by decide) (by decide)⟩
